import Mathlib

/-!
Verification of the shape-vector ASCII renderer
(`skills/ascii-renderer/scripts/render.ts`).

The embedding keeps all of the renderer's arithmetic exact:

* pixel sampling, cache-key quantization and the invert step only ever use
  rational arithmetic in the source, so they are modelled over `ℚ`;
* `euclideanDistance` (which takes a square root) and `enhanceContrast`
  (which raises to an arbitrary real exponent) are modelled over `ℝ`,
  with `Real.sqrt` and `Real.rpow`;
* the module-level mutable `cache` map is modelled by threading an explicit
  association list through the computation.

Rational sampling vectors are injected into `ℝ` (via `castVec`) at the point
where the source hands the sampled vector to the real-valued stages.
-/

-- ============================================================================
-- Character Shape Vectors  (render.ts lines 26-116)
-- ============================================================================

/-- One catalog entry: a character together with its 6-dimensional shape
signature `[topLeft, topRight, midLeft, midRight, botLeft, botRight]`. -/
structure CharacterShape where
  character : Char
  shapeVector : List ℚ
deriving DecidableEq

set_option maxHeartbeats 1000000 in
/-- The fixed character catalog `CHARACTER_SHAPES` of render.ts, in source
order.  Each entry is `⟨character, shapeVector⟩`. -/
def CHARACTER_SHAPES : List CharacterShape := [
  ⟨' ', [0.0, 0.0, 0.0, 0.0, 0.0, 0.0]⟩,
  ⟨'.', [0.0, 0.0, 0.0, 0.0, 0.2, 0.0]⟩,
  ⟨'\'', [0.3, 0.0, 0.0, 0.0, 0.0, 0.0]⟩,
  ⟨'`', [0.0, 0.3, 0.0, 0.0, 0.0, 0.0]⟩,
  ⟨',', [0.0, 0.0, 0.0, 0.0, 0.0, 0.3]⟩,
  ⟨':', [0.0, 0.0, 0.3, 0.0, 0.3, 0.0]⟩,
  ⟨';', [0.0, 0.0, 0.3, 0.0, 0.2, 0.3]⟩,
  ⟨'-', [0.0, 0.0, 0.8, 0.8, 0.0, 0.0]⟩,
  ⟨'=', [0.0, 0.0, 0.8, 0.8, 0.8, 0.8]⟩,
  ⟨'+', [0.0, 0.4, 0.8, 0.8, 0.0, 0.4]⟩,
  ⟨'*', [0.3, 0.3, 0.5, 0.5, 0.3, 0.3]⟩,
  ⟨'~', [0.0, 0.0, 0.6, 0.6, 0.0, 0.0]⟩,
  ⟨'^', [0.4, 0.4, 0.0, 0.0, 0.0, 0.0]⟩,
  ⟨'"', [0.4, 0.4, 0.0, 0.0, 0.0, 0.0]⟩,
  ⟨'|', [0.4, 0.4, 0.4, 0.4, 0.4, 0.4]⟩,
  ⟨'/', [0.0, 0.7, 0.4, 0.4, 0.7, 0.0]⟩,
  ⟨'\\', [0.7, 0.0, 0.4, 0.4, 0.0, 0.7]⟩,
  ⟨'(', [0.0, 0.5, 0.5, 0.0, 0.0, 0.5]⟩,
  ⟨')', [0.5, 0.0, 0.0, 0.5, 0.5, 0.0]⟩,
  ⟨'[', [0.5, 0.5, 0.5, 0.0, 0.5, 0.5]⟩,
  ⟨']', [0.5, 0.5, 0.0, 0.5, 0.5, 0.5]⟩,
  ⟨'{', [0.3, 0.5, 0.6, 0.0, 0.3, 0.5]⟩,
  ⟨'}', [0.5, 0.3, 0.0, 0.6, 0.5, 0.3]⟩,
  ⟨'<', [0.0, 0.5, 0.5, 0.0, 0.0, 0.5]⟩,
  ⟨'>', [0.5, 0.0, 0.0, 0.5, 0.5, 0.0]⟩,
  ⟨'i', [0.3, 0.0, 0.5, 0.0, 0.5, 0.0]⟩,
  ⟨'l', [0.5, 0.0, 0.5, 0.0, 0.5, 0.5]⟩,
  ⟨'I', [0.5, 0.5, 0.4, 0.4, 0.5, 0.5]⟩,
  ⟨'!', [0.4, 0.0, 0.4, 0.0, 0.3, 0.0]⟩,
  ⟨'t', [0.5, 0.5, 0.5, 0.0, 0.3, 0.4]⟩,
  ⟨'f', [0.3, 0.5, 0.5, 0.3, 0.5, 0.0]⟩,
  ⟨'r', [0.0, 0.0, 0.5, 0.5, 0.5, 0.0]⟩,
  ⟨'n', [0.0, 0.0, 0.6, 0.6, 0.5, 0.5]⟩,
  ⟨'u', [0.0, 0.0, 0.5, 0.5, 0.5, 0.5]⟩,
  ⟨'v', [0.0, 0.0, 0.5, 0.5, 0.3, 0.3]⟩,
  ⟨'x', [0.0, 0.0, 0.6, 0.6, 0.6, 0.6]⟩,
  ⟨'z', [0.0, 0.0, 0.6, 0.6, 0.6, 0.6]⟩,
  ⟨'c', [0.0, 0.0, 0.5, 0.4, 0.5, 0.4]⟩,
  ⟨'o', [0.0, 0.0, 0.5, 0.5, 0.5, 0.5]⟩,
  ⟨'a', [0.0, 0.0, 0.5, 0.6, 0.5, 0.6]⟩,
  ⟨'e', [0.0, 0.0, 0.6, 0.5, 0.5, 0.4]⟩,
  ⟨'s', [0.0, 0.0, 0.5, 0.4, 0.4, 0.5]⟩,
  ⟨'J', [0.4, 0.5, 0.0, 0.5, 0.5, 0.4]⟩,
  ⟨'L', [0.5, 0.0, 0.5, 0.0, 0.5, 0.5]⟩,
  ⟨'C', [0.4, 0.5, 0.5, 0.0, 0.4, 0.5]⟩,
  ⟨'U', [0.5, 0.5, 0.5, 0.5, 0.4, 0.4]⟩,
  ⟨'O', [0.4, 0.4, 0.5, 0.5, 0.4, 0.4]⟩,
  ⟨'0', [0.5, 0.5, 0.5, 0.5, 0.5, 0.5]⟩,
  ⟨'Q', [0.4, 0.4, 0.5, 0.5, 0.5, 0.6]⟩,
  ⟨'Y', [0.5, 0.5, 0.3, 0.3, 0.3, 0.0]⟩,
  ⟨'X', [0.6, 0.6, 0.4, 0.4, 0.6, 0.6]⟩,
  ⟨'Z', [0.6, 0.6, 0.4, 0.4, 0.6, 0.6]⟩,
  ⟨'m', [0.0, 0.0, 0.7, 0.7, 0.6, 0.6]⟩,
  ⟨'w', [0.0, 0.0, 0.6, 0.6, 0.7, 0.7]⟩,
  ⟨'q', [0.0, 0.0, 0.6, 0.6, 0.5, 0.6]⟩,
  ⟨'p', [0.0, 0.0, 0.6, 0.6, 0.6, 0.5]⟩,
  ⟨'d', [0.0, 0.5, 0.5, 0.5, 0.5, 0.5]⟩,
  ⟨'b', [0.5, 0.0, 0.5, 0.5, 0.5, 0.5]⟩,
  ⟨'k', [0.5, 0.0, 0.5, 0.5, 0.5, 0.5]⟩,
  ⟨'h', [0.5, 0.0, 0.5, 0.5, 0.5, 0.5]⟩,
  ⟨'A', [0.4, 0.4, 0.6, 0.6, 0.5, 0.5]⟩,
  ⟨'V', [0.5, 0.5, 0.5, 0.5, 0.3, 0.3]⟩,
  ⟨'T', [0.6, 0.6, 0.3, 0.3, 0.3, 0.0]⟩,
  ⟨'N', [0.6, 0.6, 0.6, 0.6, 0.6, 0.6]⟩,
  ⟨'H', [0.5, 0.5, 0.6, 0.6, 0.5, 0.5]⟩,
  ⟨'K', [0.5, 0.5, 0.6, 0.5, 0.5, 0.5]⟩,
  ⟨'D', [0.6, 0.5, 0.6, 0.5, 0.6, 0.5]⟩,
  ⟨'P', [0.6, 0.5, 0.6, 0.5, 0.5, 0.0]⟩,
  ⟨'R', [0.6, 0.5, 0.6, 0.5, 0.5, 0.5]⟩,
  ⟨'B', [0.6, 0.5, 0.6, 0.5, 0.6, 0.5]⟩,
  ⟨'E', [0.6, 0.6, 0.6, 0.4, 0.6, 0.6]⟩,
  ⟨'F', [0.6, 0.6, 0.6, 0.4, 0.5, 0.0]⟩,
  ⟨'G', [0.5, 0.6, 0.5, 0.4, 0.5, 0.6]⟩,
  ⟨'S', [0.5, 0.6, 0.5, 0.5, 0.6, 0.5]⟩,
  ⟨'#', [0.7, 0.7, 0.8, 0.8, 0.7, 0.7]⟩,
  ⟨'%', [0.7, 0.5, 0.5, 0.5, 0.5, 0.7]⟩,
  ⟨'&', [0.5, 0.5, 0.6, 0.6, 0.6, 0.7]⟩,
  ⟨'M', [0.7, 0.7, 0.6, 0.6, 0.6, 0.6]⟩,
  ⟨'W', [0.6, 0.6, 0.6, 0.6, 0.7, 0.7]⟩,
  ⟨'8', [0.6, 0.6, 0.6, 0.6, 0.6, 0.6]⟩,
  ⟨'$', [0.6, 0.6, 0.6, 0.6, 0.6, 0.6]⟩,
  ⟨'@', [0.8, 0.8, 0.8, 0.8, 0.8, 0.7]⟩]

/-- Injection of a rational sampling vector into `ℝ`, used where the source
hands exactly-sampled data to the real-valued pipeline stages. -/
def castVec (v : List ℚ) : List ℝ := v.map (fun q : ℚ => (q : ℝ))

-- ============================================================================
-- Vector Math  (render.ts lines 122-128)
-- ============================================================================

/-- Sum of squared component differences.  The source's loop runs over the
index range of the first argument; all call sites pass equal-length (6-entry)
vectors, for which the zip below coincides with that loop. -/
def sqDist (a b : List ℝ) : ℝ := ((a.zip b).map (fun p => (p.1 - p.2) ^ 2)).sum

/-- `euclideanDistance` of render.ts: the square root of the sum of squared
component differences. -/
noncomputable def euclideanDistance (a b : List ℝ) : ℝ := Real.sqrt (sqDist a b)

/-- Rational counterpart of `sqDist`, used to evaluate distance comparisons
exactly (comparing square roots of nonnegative numbers is equivalent to
comparing their radicands). -/
def sqDistQ (a b : List ℚ) : ℚ := ((a.zip b).map (fun p => (p.1 - p.2) ^ 2)).sum

-- ============================================================================
-- Cached Character Lookup  (render.ts lines 134-167)
-- ============================================================================

/-- `generateCacheKey` of render.ts with `BITS = 5`, `RANGE = 32`: quantize
each component to `min 31 ⌊value * 32⌋` and pack the six 5-bit digits into one
integer.  For the nonnegative in-range digits produced here, the source's
`(key << 5) | quantized` equals `key * 32 + quantized`. -/
noncomputable def generateCacheKey (vector : List ℝ) : ℤ :=
  vector.foldl (fun key value => key * 32 + min 31 ⌊value * 32⌋) 0

/-- Rational counterpart of `generateCacheKey` (the key of `castVec v` equals
the key of `v`, proved below). -/
def generateCacheKeyQ (vector : List ℚ) : ℤ :=
  vector.foldl (fun key value => key * 32 + min 31 ⌊value * 32⌋) 0

/-- The `cache` map of render.ts, modelled as an association list from packed
quantized keys to resolved characters, threaded explicitly through the
computation. -/
abbrev MatchCache := List (ℤ × Char)

/-- `Map.get`/`Map.has` of the cache: first binding of a key, if any. -/
def cacheFind (c : MatchCache) (k : ℤ) : Option Char :=
  match c with
  | [] => none
  | (k', ch) :: rest => if k = k' then some ch else cacheFind rest k

/-- One step of the linear catalog scan of `findBestCharacter`: the running
state is `(bestChar, bestDistance)`, with `none` standing for the initial
`Infinity` (every actual distance compares below it, exactly as in the
source). -/
noncomputable def scanStep (samplingVector : List ℝ)
    (best : Char × Option ℝ) (cs : CharacterShape) : Char × Option ℝ :=
  let dist := euclideanDistance samplingVector (castVec cs.shapeVector)
  match best.2 with
  | none => (cs.character, some dist)
  | some b => if dist < b then (cs.character, some dist) else best

/-- The full linear catalog scan of `findBestCharacter` (the code path taken
on a cache miss), starting from `bestChar = ' '`, `bestDistance = Infinity`. -/
noncomputable def scanBest (samplingVector : List ℝ) : Char :=
  (CHARACTER_SHAPES.foldl (scanStep samplingVector) (' ', none)).1

/-- Rational counterpart of `scanStep`, comparing squared distances. -/
def scanStepQ (samplingVector : List ℚ)
    (best : Char × Option ℚ) (cs : CharacterShape) : Char × Option ℚ :=
  let dist := sqDistQ samplingVector cs.shapeVector
  match best.2 with
  | none => (cs.character, some dist)
  | some b => if dist < b then (cs.character, some dist) else best

/-- Rational counterpart of `scanBest` (agrees with it on `castVec` inputs,
proved below). -/
def scanBestQ (samplingVector : List ℚ) : Char :=
  (CHARACTER_SHAPES.foldl (scanStepQ samplingVector) (' ', none)).1

/-- `findBestCharacter` of render.ts: consult the cache under the quantized
key; on a hit return the cached character, on a miss run the full linear scan
and record its result.  Returns the character together with the updated
cache. -/
noncomputable def findBestCharacter (cache : MatchCache)
    (samplingVector : List ℝ) : Char × MatchCache :=
  let key := generateCacheKey samplingVector
  match cacheFind cache key with
  | some ch => (ch, cache)
  | none =>
      let bestChar := scanBest samplingVector
      (bestChar, (key, bestChar) :: cache)

-- ============================================================================
-- Image Sampling  (render.ts lines 173-238)
-- ============================================================================

/-- `ImageData` of render.ts: dimensions plus row-major RGBA bytes. -/
structure ImageData where
  width : ℤ
  height : ℤ
  data : List ℕ

/-- Array access `data[idx] ?? 0`: out-of-range (or negative) indices read
as `0`. -/
def byteAt (d : List ℕ) (i : ℤ) : ℕ :=
  if i < 0 then 0 else d.getD i.toNat 0

/-- The integers from `a` to `b` inclusive (empty when `b < a`): the index
range of one of the sampling loops in `sampleCircle`. -/
def intRange (a b : ℤ) : List ℤ := (List.range (b + 1 - a).toNat).map (fun n : ℕ => a + (n : ℤ))

/-- The relative luminance `0.299 r + 0.587 g + 0.114 b` of one pixel. -/
def lum (r g b : ℕ) : ℚ := 0.299 * r + 0.587 * g + 0.114 * b

/-- The luminance of the pixel at integer coordinates `p = (x, y)`, reading
the three colour bytes at index `(y * width + x) * 4` as in the source. -/
def lumAt (imageData : ImageData) (p : ℤ × ℤ) : ℚ :=
  let idx := (p.2 * imageData.width + p.1) * 4
  lum (byteAt imageData.data idx) (byteAt imageData.data (idx + 1))
    (byteAt imageData.data (idx + 2))

/-- The pixels visited and accepted by the double loop of `sampleCircle`:
integer points of the clamped bounding box whose distance from the centre is
at most `radius`. -/
def diskPixels (imageData : ImageData) (cx cy radius : ℚ) : List (ℤ × ℤ) :=
  let minY := max 0 ⌊cy - radius⌋
  let maxY := min (imageData.height - 1) ⌈cy + radius⌉
  let minX := max 0 ⌊cx - radius⌋
  let maxX := min (imageData.width - 1) ⌈cx + radius⌉
  ((intRange minY maxY).flatMap (fun y => (intRange minX maxX).map (fun x => (x, y)))).filter
    (fun p => decide (((p.1 : ℚ) - cx) ^ 2 + ((p.2 : ℚ) - cy) ^ 2 ≤ radius ^ 2))

/-- `sampleCircle` of render.ts: mean luminance over the disk, normalized by
255; `0` when the disk contains no pixels. -/
def sampleCircle (imageData : ImageData) (cx cy radius : ℚ) : ℚ :=
  let ps := diskPixels imageData cx cy radius
  if ps.length = 0 then 0
  else ((ps.map (lumAt imageData)).sum / ps.length) / 255

/-- The six relative sample positions of `sampleCell` (2 columns × 3 rows). -/
def samplePositions : List (ℚ × ℚ) :=
  [(0.25, 0.17), (0.75, 0.17), (0.25, 0.5), (0.75, 0.5), (0.25, 0.83), (0.75, 0.83)]

/-- `sampleCell` of render.ts: sample a disk of radius
`0.15 * min cellWidth cellHeight` at each of the six positions. -/
def sampleCell (imageData : ImageData) (cellX cellY cellWidth cellHeight : ℚ) :
    List ℚ :=
  let radius := min cellWidth cellHeight * 0.15
  samplePositions.map (fun pos =>
    sampleCircle imageData (cellX + pos.1 * cellWidth) (cellY + pos.2 * cellHeight) radius)

-- ============================================================================
-- Contrast Enhancement  (render.ts lines 244-252)
-- ============================================================================

/-- `Math.max(...samplingVector)` for the (always nonempty, nonnegative)
sampling vectors of the pipeline. -/
def maxComp (v : List ℝ) : ℝ := v.foldr max 0

/-- `enhanceContrast` of render.ts: if the peak is `0` return the vector
unchanged, otherwise normalize by the peak, raise to the exponent, and rescale
by the peak. -/
noncomputable def enhanceContrast (samplingVector : List ℝ) (exponent : ℝ) :
    List ℝ :=
  let maxVal := maxComp samplingVector
  if maxVal = 0 then samplingVector
  else samplingVector.map (fun v => (v / maxVal) ^ exponent * maxVal)

-- ============================================================================
-- Renderer  (render.ts lines 258-294)
-- ============================================================================

/-- `RenderOptions` of render.ts (defaults are supplied by the caller). -/
structure RenderOptions where
  cols : ℕ
  rows : ℕ
  contrastExponent : ℝ
  invert : Bool

/-- The vector handed to `findBestCharacter` for one grid cell: sample the
cell at `(col * cellWidth, row * cellHeight)`, optionally invert, then apply
contrast enhancement. -/
noncomputable def cellVector (imageData : ImageData) (options : RenderOptions)
    (row col : ℕ) : List ℝ :=
  let cellWidth := (imageData.width : ℚ) / options.cols
  let cellHeight := (imageData.height : ℚ) / options.rows
  let sampled := sampleCell imageData (col * cellWidth) (row * cellHeight)
    cellWidth cellHeight
  let inverted := if options.invert then sampled.map (fun v => 1 - v) else sampled
  enhanceContrast (castVec inverted) options.contrastExponent

/-- The inner column loop of `renderToAscii`: append one resolved character
per cell to the current line, threading the cache. -/
noncomputable def renderLine (imageData : ImageData) (options : RenderOptions)
    (row : ℕ) (start : String × MatchCache) : String × MatchCache :=
  (List.range options.cols).foldl (fun acc col =>
    let r := findBestCharacter acc.2 (cellVector imageData options row col)
    (acc.1.push r.1, r.2)) start

/-- `renderToAscii` of render.ts: one line per row, lines joined by a single
newline.  The cache is threaded through the whole render and returned. -/
noncomputable def renderToAscii (imageData : ImageData) (options : RenderOptions)
    (cache : MatchCache) : String × MatchCache :=
  let r := (List.range options.rows).foldl (fun acc row =>
    let lr := renderLine imageData options row ("", acc.2)
    (acc.1 ++ [lr.1], lr.2)) (([] : List String), cache)
  (String.intercalate "\n" r.1, r.2)

/-- The renderer with the cache disabled: every cell is resolved by the full
linear catalog scan. -/
noncomputable def renderNoCache (imageData : ImageData) (options : RenderOptions) :
    String :=
  String.intercalate "\n" ((List.range options.rows).map (fun row =>
    (List.range options.cols).foldl (fun line col =>
      line.push (scanBest (cellVector imageData options row col))) ""))

-- ============================================================================
-- Auxiliary constructions for the claims
-- ============================================================================

/-- The per-pixel complement of a buffer (same dimensions): every R, G, B byte
(byte index `≢ 3 mod 4`) becomes `255 - byte`; alpha bytes are unchanged. -/
def complementImage (imageData : ImageData) : ImageData :=
  ⟨imageData.width, imageData.height,
    List.ofFn (fun i : Fin imageData.data.length =>
      if (i : ℕ) % 4 < 3 then 255 - imageData.data.get i else imageData.data.get i)⟩

/-- A grayscale test buffer: pixel `(x, y)` has value `f x y` in all three
colour channels and alpha `255`. -/
def mkBuf (w h : ℕ) (f : ℕ → ℕ → ℕ) : ImageData :=
  ⟨(w : ℤ), (h : ℤ), List.ofFn (fun i : Fin (w * h * 4) =>
    let p := i.1 / 4
    if i.1 % 4 < 3 then f (p % w) (p / w) else 255)⟩

/-- The cache state after a sequence of matcher calls starting from the empty
cache. -/
noncomputable def applyCalls (vs : List (List ℝ)) : MatchCache :=
  vs.foldl (fun c v => (findBestCharacter c v).2) []

/-- A well-formed sampling vector: exactly 6 components, each in `[0, 1]`. -/
def SamplingVectorWF (v : List ℝ) : Prop :=
  v.length = 6 ∧ ∀ x ∈ v, 0 ≤ x ∧ x ≤ 1

-- ============================================================================
-- Bridges between the real-valued pipeline and its exact rational mirror
-- ============================================================================

lemma castVec_nil : castVec [] = [] := rfl

lemma castVec_cons (x : ℚ) (xs : List ℚ) : castVec (x :: xs) = (x : ℝ) :: castVec xs := rfl

lemma sqDist_nil_left (b : List ℝ) : sqDist [] b = 0 := by simp [sqDist]

lemma sqDist_cons (a b : ℝ) (as bs : List ℝ) :
    sqDist (a :: as) (b :: bs) = (a - b) ^ 2 + sqDist as bs := by
  simp [sqDist]

lemma sqDistQ_cons (a b : ℚ) (as bs : List ℚ) :
    sqDistQ (a :: as) (b :: bs) = (a - b) ^ 2 + sqDistQ as bs := by
  simp [sqDistQ]

lemma sqDistQ_nonneg (a b : List ℚ) : 0 ≤ sqDistQ a b := by
  unfold sqDistQ
  apply List.sum_nonneg
  intro x hx
  obtain ⟨p, _, rfl⟩ := List.mem_map.mp hx
  positivity

lemma sqDist_cast (a b : List ℚ) :
    sqDist (castVec a) (castVec b) = ((sqDistQ a b : ℚ) : ℝ) := by
  induction a generalizing b with
  | nil =>
      rw [castVec_nil, sqDist_nil_left]
      simp [sqDistQ]
  | cons x xs ih =>
      cases b with
      | nil =>
          simp [castVec, sqDist, sqDistQ]
      | cons y ys =>
          rw [castVec_cons, castVec_cons, sqDist_cons, sqDistQ_cons, ih ys]
          push_cast
          ring

lemma euclideanDistance_cast (a b : List ℚ) :
    euclideanDistance (castVec a) (castVec b) = Real.sqrt ((sqDistQ a b : ℚ) : ℝ) := by
  rw [euclideanDistance, sqDist_cast]

lemma scanFold_cast (v : List ℚ) (l : List CharacterShape) (ch : Char) (q : Option ℚ)
    (hq : ∀ x ∈ q, 0 ≤ x) :
    l.foldl (scanStep (castVec v)) (ch, q.map (fun x => Real.sqrt ((x : ℚ) : ℝ))) =
      ((l.foldl (scanStepQ v) (ch, q)).1,
        (l.foldl (scanStepQ v) (ch, q)).2.map (fun x => Real.sqrt ((x : ℚ) : ℝ))) := by
  induction l generalizing ch q with
  | nil => simp
  | cons c cs ih =>
      have hnext : ∀ x ∈ some (sqDistQ v c.shapeVector), 0 ≤ x := by
        intro x hx
        simp only [Option.mem_def, Option.some.injEq] at hx
        subst hx
        exact sqDistQ_nonneg _ _
      cases q with
      | none =>
          have h2 := ih c.character (some (sqDistQ v c.shapeVector)) hnext
          simp only [Option.map_some'] at h2
          simp only [List.foldl_cons, scanStep, scanStepQ, Option.map_none',
            euclideanDistance_cast]
          exact h2
      | some b =>
          have hcond : (euclideanDistance (castVec v) (castVec c.shapeVector) <
              Real.sqrt ((b : ℚ) : ℝ)) ↔ sqDistQ v c.shapeVector < b := by
            rw [euclideanDistance_cast,
              Real.sqrt_lt_sqrt_iff (by exact_mod_cast sqDistQ_nonneg v c.shapeVector)]
            exact_mod_cast Iff.rfl
          by_cases hlt : sqDistQ v c.shapeVector < b
          · have h2 := ih c.character (some (sqDistQ v c.shapeVector)) hnext
            simp only [Option.map_some'] at h2
            simp only [List.foldl_cons, scanStep, scanStepQ, Option.map_some']
            rw [if_pos (hcond.mpr hlt), if_pos hlt, euclideanDistance_cast]
            exact h2
          · have h2 := ih ch (some b) hq
            simp only [Option.map_some'] at h2
            simp only [List.foldl_cons, scanStep, scanStepQ, Option.map_some']
            rw [if_neg (fun h => hlt (hcond.mp h)), if_neg hlt]
            exact h2

lemma scanBest_cast (v : List ℚ) : scanBest (castVec v) = scanBestQ v := by
  have h := scanFold_cast v CHARACTER_SHAPES ' ' none (by intro x hx; simp at hx)
  simp only [Option.map_none'] at h
  unfold scanBest scanBestQ
  rw [h]

lemma genKeyAux_cast (v : List ℚ) (k : ℤ) :
    (castVec v).foldl (fun key value => key * 32 + min 31 ⌊value * 32⌋) k =
      v.foldl (fun key value => key * 32 + min 31 ⌊value * 32⌋) k := by
  induction v generalizing k with
  | nil => rfl
  | cons x xs ih =>
      rw [castVec_cons, List.foldl_cons, List.foldl_cons]
      have h1 : ((x : ℝ) * 32) = ((x * 32 : ℚ) : ℝ) := by push_cast; ring
      rw [h1, Rat.floor_cast]
      exact ih _

lemma generateCacheKey_cast (v : List ℚ) :
    generateCacheKey (castVec v) = generateCacheKeyQ v := by
  unfold generateCacheKey generateCacheKeyQ
  exact genKeyAux_cast v 0

/-- Exact rational mirror of `findBestCharacter`. -/
def findBestCharacterQ (cache : MatchCache) (samplingVector : List ℚ) :
    Char × MatchCache :=
  let key := generateCacheKeyQ samplingVector
  match cacheFind cache key with
  | some ch => (ch, cache)
  | none =>
      let bestChar := scanBestQ samplingVector
      (bestChar, (key, bestChar) :: cache)

lemma findBestCharacter_cast (c : MatchCache) (v : List ℚ) :
    findBestCharacter c (castVec v) = findBestCharacterQ c v := by
  unfold findBestCharacter findBestCharacterQ
  rw [generateCacheKey_cast, scanBest_cast]

-- ============================================================================
-- Contrast-enhancement lemmas
-- ============================================================================

lemma enhanceContrast_of_max_zero (v : List ℝ) (e : ℝ) (h : maxComp v = 0) :
    enhanceContrast v e = v := by
  unfold enhanceContrast
  rw [if_pos h]

lemma enhanceContrast_one (v : List ℝ) : enhanceContrast v 1 = v := by
  unfold enhanceContrast
  by_cases h : maxComp v = 0
  · rw [if_pos h]
  · rw [if_neg h]
    have hfun : (fun x : ℝ => (x / maxComp v) ^ (1 : ℝ) * maxComp v) = fun x => x := by
      funext x
      rw [Real.rpow_one, div_mul_cancel₀ _ h]
    rw [hfun, List.map_id']

lemma castVec_zeros : castVec [0, 0, 0, 0, 0, 0] = [(0 : ℝ), 0, 0, 0, 0, 0] := by
  simp [castVec]

lemma castVec_ones : castVec [1, 1, 1, 1, 1, 1] = [(1 : ℝ), 1, 1, 1, 1, 1] := by
  simp [castVec]

lemma maxComp_zeros : maxComp [(0 : ℝ), 0, 0, 0, 0, 0] = 0 := by
  simp [maxComp]

lemma maxComp_ones : maxComp [(1 : ℝ), 1, 1, 1, 1, 1] = 1 := by
  norm_num [maxComp]

lemma enhanceContrast_ones (e : ℝ) :
    enhanceContrast [(1 : ℝ), 1, 1, 1, 1, 1] e = [(1 : ℝ), 1, 1, 1, 1, 1] := by
  unfold enhanceContrast
  rw [maxComp_ones, if_neg one_ne_zero]
  simp [Real.one_rpow]

-- ============================================================================
-- Characterization of the linear scan: first index attaining the minimum
-- ============================================================================

/-- Distance from an input vector to one catalog entry's signature. -/
noncomputable def entryDist (v : List ℝ) (c : CharacterShape) : ℝ :=
  euclideanDistance v (castVec c.shapeVector)

lemma get_append_last (l : List CharacterShape) (a : CharacterShape)
    (h : l.length < (l ++ [a]).length) : (l ++ [a]).get ⟨l.length, h⟩ = a := by
  simp

lemma get_append_lt (l : List CharacterShape) (a : CharacterShape) (j : ℕ)
    (hj : j < l.length) (h : j < (l ++ [a]).length) :
    (l ++ [a]).get ⟨j, h⟩ = l.get ⟨j, hj⟩ := by
  simp [List.getElem_append_left, hj]

/-- The scan fold returns the catalog entry at the first index attaining the
minimum distance: the result's distance is a lower bound for all entries, and
strictly below every earlier entry's distance. -/
lemma scanFold_argmin (v : List ℝ) (l : List CharacterShape) :
    l ≠ [] →
    ∃ i : Fin l.length,
      l.foldl (scanStep v) (' ', none) =
        ((l.get i).character, some (entryDist v (l.get i))) ∧
      (∀ j : Fin l.length, entryDist v (l.get i) ≤ entryDist v (l.get j)) ∧
      (∀ j : Fin l.length, (j : ℕ) < (i : ℕ) →
        entryDist v (l.get i) < entryDist v (l.get j)) := by
  induction l using List.reverseRecOn with
  | nil => intro h; exact absurd rfl h
  | append_singleton l a ih =>
      intro _
      rcases eq_or_ne l [] with rfl | hl
      · refine ⟨⟨0, by simp⟩, ?_, ?_, ?_⟩
        · simp [scanStep, entryDist]
        · intro j
          fin_cases j <;> simp
        · intro j hj
          simp at hj
      · obtain ⟨i, hfold, hmin, hstrict⟩ := ih hl
        rw [List.foldl_append, hfold]
        by_cases hda : entryDist v a < entryDist v (l.get i)
        · refine ⟨⟨l.length, by simp⟩, ?_, ?_, ?_⟩
          · rw [get_append_last]
            simp only [List.foldl_cons, List.foldl_nil, scanStep, entryDist] at hda ⊢
            rw [if_pos hda]
          · rintro ⟨jv, hj⟩
            rw [get_append_last]
            have hj' : jv < l.length + 1 := by simpa using hj
            rcases lt_or_eq_of_le (Nat.lt_succ_iff.mp hj') with hlt | heq
            · rw [get_append_lt l a jv hlt]
              exact le_of_lt (lt_of_lt_of_le hda (hmin ⟨jv, hlt⟩))
            · subst heq
              rw [get_append_last]
            
          · rintro ⟨jv, hj⟩ hjlt
            rw [get_append_last]
            have hlt : jv < l.length := by simpa using hjlt
            rw [get_append_lt l a jv hlt]
            exact lt_of_lt_of_le hda (hmin ⟨jv, hlt⟩)
        · have hi' : (i : ℕ) < (l ++ [a]).length := by
            simp
            omega
          refine ⟨⟨i, hi'⟩, ?_, ?_, ?_⟩
          · rw [get_append_lt l a i i.isLt]
            simp only [List.foldl_cons, List.foldl_nil, scanStep, entryDist] at hda ⊢
            rw [if_neg hda]
          · rintro ⟨jv, hj⟩
            rw [get_append_lt l a i i.isLt]
            have hj' : jv < l.length + 1 := by simpa using hj
            rcases lt_or_eq_of_le (Nat.lt_succ_iff.mp hj') with hlt | heq
            · rw [get_append_lt l a jv hlt]
              exact hmin ⟨jv, hlt⟩
            · subst heq
              rw [get_append_last]
              exact not_lt.mp hda
          · rintro ⟨jv, hj⟩ hjlt
            rw [get_append_lt l a i i.isLt]
            have hlt : jv < l.length := lt_trans hjlt i.isLt
            rw [get_append_lt l a jv hlt]
            exact hstrict ⟨jv, hlt⟩ hjlt

lemma CHARACTER_SHAPES_ne_nil : CHARACTER_SHAPES ≠ [] := by
  unfold CHARACTER_SHAPES
  simp

/-- The scan of `findBestCharacter` over the full catalog, characterized. -/
lemma scanBest_argmin (v : List ℝ) :
    ∃ i : Fin CHARACTER_SHAPES.length,
      scanBest v = (CHARACTER_SHAPES.get i).character ∧
      (∀ j : Fin CHARACTER_SHAPES.length,
        entryDist v (CHARACTER_SHAPES.get i) ≤ entryDist v (CHARACTER_SHAPES.get j)) ∧
      (∀ j : Fin CHARACTER_SHAPES.length, (j : ℕ) < (i : ℕ) →
        entryDist v (CHARACTER_SHAPES.get i) < entryDist v (CHARACTER_SHAPES.get j)) := by
  obtain ⟨i, hfold, hmin, hstrict⟩ := scanFold_argmin v CHARACTER_SHAPES CHARACTER_SHAPES_ne_nil
  refine ⟨i, ?_, hmin, hstrict⟩
  unfold scanBest
  rw [hfold]

-- ============================================================================
-- Catalog facts
-- ============================================================================

lemma catalog_sig_len : ∀ cs ∈ CHARACTER_SHAPES, cs.shapeVector.length = 6 := by
  decide

set_option maxHeartbeats 2000000 in
lemma catalog_comp_big :
    ∀ cs ∈ CHARACTER_SHAPES, ∀ x ∈ cs.shapeVector, x = 0 ∨ (1 / 5 : ℚ) ≤ x := by
  intro cs hcs
  fin_cases hcs <;> (intro x hx; fin_cases hx <;> norm_num)

-- ============================================================================
-- Quantized keys: the zero key forces every component below 1/32
-- ============================================================================

lemma genKeyAux_nonneg (v : List ℝ) (hv : ∀ x ∈ v, 0 ≤ x) (k : ℤ) (hk : 0 ≤ k) :
    0 ≤ v.foldl (fun key value => key * 32 + min 31 ⌊value * 32⌋) k := by
  induction v generalizing k with
  | nil => simpa using hk
  | cons x xs ih =>
      rw [List.foldl_cons]
      refine ih (fun y hy => hv y (List.mem_cons_of_mem _ hy)) _ ?_
      have hx : 0 ≤ x := hv x (List.mem_cons_self _ _)
      have hfl : 0 ≤ ⌊x * 32⌋ := Int.floor_nonneg.mpr (by positivity)
      have : (0 : ℤ) ≤ min 31 ⌊x * 32⌋ := le_min (by norm_num) hfl
      nlinarith

lemma genKeyAux_eq_zero (v : List ℝ) (hv : ∀ x ∈ v, 0 ≤ x) (k : ℤ) (hk : 0 ≤ k)
    (h : v.foldl (fun key value => key * 32 + min 31 ⌊value * 32⌋) k = 0) :
    k = 0 ∧ ∀ x ∈ v, x < 1 / 32 := by
  induction v generalizing k with
  | nil => exact ⟨by simpa using h, by simp⟩
  | cons x xs ih =>
      rw [List.foldl_cons] at h
      have hx : 0 ≤ x := hv x (List.mem_cons_self _ _)
      have hfl : 0 ≤ ⌊x * 32⌋ := Int.floor_nonneg.mpr (by positivity)
      have hd0 : (0 : ℤ) ≤ min 31 ⌊x * 32⌋ := le_min (by norm_num) hfl
      have hd31 : min 31 ⌊x * 32⌋ ≤ 31 := min_le_left _ _
      have hnext : (0 : ℤ) ≤ k * 32 + min 31 ⌊x * 32⌋ := by nlinarith
      obtain ⟨hzero, hrest⟩ :=
        ih (fun y hy => hv y (List.mem_cons_of_mem _ hy)) _ hnext h
      have hk0 : k = 0 ∧ min 31 ⌊x * 32⌋ = 0 := by constructor <;> nlinarith
      refine ⟨hk0.1, ?_⟩
      intro y hy
      rcases List.mem_cons.mp hy with rfl | hy'
      · have hfl0 : ⌊y * 32⌋ = 0 := by
          rcases le_or_lt ⌊y * 32⌋ 31 with hle | hgt
          · have := hk0.2
            rw [min_eq_right hle] at this
            exact this
          · exfalso
            have := hk0.2
            rw [min_eq_left (le_of_lt hgt)] at this
            norm_num at this
        have := (Int.floor_eq_zero_iff.mp hfl0).2
        norm_num at this
        linarith
      · exact hrest y hy'

lemma generateCacheKey_eq_zero (v : List ℝ) (hv : ∀ x ∈ v, 0 ≤ x)
    (h : generateCacheKey v = 0) : ∀ x ∈ v, x < 1 / 32 :=
  (genKeyAux_eq_zero v hv 0 le_rfl h).2

-- ============================================================================
-- Small vectors (all components in [0, 1/32)) always scan to the space entry
-- ============================================================================

lemma sqDist_zero_le (v s z : List ℝ) (hlen : z.length = s.length)
    (hz : ∀ x ∈ z, x = 0) (hv : ∀ x ∈ v, 0 ≤ x ∧ x < 1 / 32)
    (hs : ∀ x ∈ s, x = 0 ∨ (1 / 5 : ℝ) ≤ x) :
    sqDist v z ≤ sqDist v s := by
  induction v generalizing s z with
  | nil => simp [sqDist]
  | cons x xs ih =>
      cases z with
      | nil =>
          cases s with
          | nil => simp [sqDist]
          | cons b bs => simp at hlen
      | cons a as =>
          cases s with
          | nil => simp at hlen
          | cons b bs =>
              rw [sqDist_cons, sqDist_cons]
              have ha : a = 0 := hz a (List.mem_cons_self _ _)
              have hxb : (x - a) ^ 2 ≤ (x - b) ^ 2 := by
                subst ha
                rcases hs b (List.mem_cons_self _ _) with rfl | hb
                · exact le_refl _
                · have hx := hv x (List.mem_cons_self _ _)
                  nlinarith [hx.1, hx.2, hb]
              have hrest := ih bs as (by simpa using hlen)
                (fun y hy => hz y (List.mem_cons_of_mem _ hy))
                (fun y hy => hv y (List.mem_cons_of_mem _ hy))
                (fun y hy => hs y (List.mem_cons_of_mem _ hy))
              linarith

-- ============================================================================
-- All-small vectors scan to the space entry; duplicate-signature glyphs are
-- unreachable scan results
-- ============================================================================

lemma castVec_mem_big (s : List ℚ) (hs : ∀ x ∈ s, x = 0 ∨ (1 / 5 : ℚ) ≤ x) :
    ∀ x ∈ castVec s, x = 0 ∨ (1 / 5 : ℝ) ≤ x := by
  intro x hx
  simp only [castVec, List.mem_map] at hx
  obtain ⟨q, hq, rfl⟩ := hx
  rcases hs q hq with rfl | hbig
  · left
    norm_num
  · right
    have h2 : ((1 / 5 : ℚ) : ℝ) ≤ (q : ℝ) := by exact_mod_cast hbig
    push_cast at h2
    exact h2

lemma scanBest_small (v : List ℝ) (hv : ∀ x ∈ v, 0 ≤ x ∧ x < 1 / 32) :
    scanBest v = ' ' := by
  obtain ⟨i, hchar, hmin, hstrict⟩ := scanBest_argmin v
  have h0 : (0 : ℕ) < CHARACTER_SHAPES.length := by decide
  have hget0 : CHARACTER_SHAPES.get ⟨0, h0⟩ = ⟨' ', [0.0, 0.0, 0.0, 0.0, 0.0, 0.0]⟩ := rfl
  have hsig0 : (CHARACTER_SHAPES.get ⟨0, h0⟩).shapeVector = [0.0, 0.0, 0.0, 0.0, 0.0, 0.0] := rfl
  have hcz6 : castVec [0.0, 0.0, 0.0, 0.0, 0.0, 0.0] = [(0 : ℝ), 0, 0, 0, 0, 0] := by
    norm_num [castVec]
  have hle : ∀ j : Fin CHARACTER_SHAPES.length,
      entryDist v (CHARACTER_SHAPES.get ⟨0, h0⟩) ≤ entryDist v (CHARACTER_SHAPES.get j) := by
    intro j
    have hjmem : CHARACTER_SHAPES.get j ∈ CHARACTER_SHAPES := List.get_mem _ _ _
    unfold entryDist euclideanDistance
    apply Real.sqrt_le_sqrt
    rw [hsig0, hcz6]
    apply sqDist_zero_le
    · have hj := catalog_sig_len _ hjmem
      unfold castVec
      rw [List.length_map, hj]
      rfl
    · intro x hx
      simp only [List.mem_cons, List.not_mem_nil, or_false] at hx
      rcases hx with h | h | h | h | h | h <;> exact h
    · exact hv
    · exact castVec_mem_big _ (catalog_comp_big _ hjmem)
  have hi0 : (i : ℕ) = 0 := by
    by_contra hne
    have hpos : 0 < (i : ℕ) := Nat.pos_of_ne_zero hne
    have h1 := hstrict ⟨0, h0⟩ hpos
    have h2 := hle i
    linarith
  have : i = ⟨0, h0⟩ := Fin.ext hi0
  subst this
  rw [hchar, hget0]

/-- The nine catalog glyphs whose signature repeats an earlier entry's
signature. -/
def dupChars : List Char := ['z', '"', '<', '>', 'o', 'k', 'h', 'Z', '$']

/-- Fallback entry used only for `List.getD` statements. -/
def defaultShape : CharacterShape := ⟨' ', []⟩

lemma dup_char_indices :
    ∀ k ∈ List.range CHARACTER_SHAPES.length,
      (CHARACTER_SHAPES.getD k defaultShape).character ∈ dupChars →
        k ∈ ([13, 23, 24, 36, 38, 51, 58, 59, 80] : List ℕ) := by
  decide

lemma dup_twin :
    ∀ k ∈ ([13, 23, 24, 36, 38, 51, 58, 59, 80] : List ℕ),
      ∃ j, j < k ∧ (CHARACTER_SHAPES.getD j defaultShape).shapeVector =
        (CHARACTER_SHAPES.getD k defaultShape).shapeVector := by
  intro k hk
  fin_cases hk
  · exact ⟨12, by norm_num, rfl⟩
  · exact ⟨17, by norm_num, rfl⟩
  · exact ⟨18, by norm_num, rfl⟩
  · exact ⟨35, by norm_num, rfl⟩
  · exact ⟨33, by norm_num, rfl⟩
  · exact ⟨50, by norm_num, rfl⟩
  · exact ⟨57, by norm_num, rfl⟩
  · exact ⟨57, by norm_num, rfl⟩
  · exact ⟨79, by norm_num, rfl⟩

lemma scanBest_not_dup (v : List ℝ) : scanBest v ∉ dupChars := by
  obtain ⟨i, hchar, hmin, hstrict⟩ := scanBest_argmin v
  intro hmem
  rw [hchar] at hmem
  have hgetD : CHARACTER_SHAPES.getD (i : ℕ) defaultShape = CHARACTER_SHAPES.get i := by
    rw [List.getD_eq_getElem _ _ i.isLt, List.get_eq_getElem]
  have hk := dup_char_indices (i : ℕ) (List.mem_range.mpr i.isLt)
    (by rw [hgetD]; exact hmem)
  obtain ⟨j, hj, hsig⟩ := dup_twin (i : ℕ) hk
  have hjlt : j < CHARACTER_SHAPES.length := lt_trans hj i.isLt
  have hgetDj : CHARACTER_SHAPES.getD j defaultShape = CHARACTER_SHAPES.get ⟨j, hjlt⟩ := by
    rw [List.getD_eq_getElem _ _ hjlt, List.get_eq_getElem]
  have heq : entryDist v (CHARACTER_SHAPES.get ⟨j, hjlt⟩) =
      entryDist v (CHARACTER_SHAPES.get i) := by
    unfold entryDist
    rw [← hgetDj, ← hgetD, hsig]
  have hlt := hstrict ⟨j, hjlt⟩ hj
  rw [heq] at hlt
  exact lt_irrefl _ hlt

-- ============================================================================
-- Cache-state invariants under sequences of matcher calls
-- ============================================================================

lemma callsFold_find_zero (vs : List (List ℝ))
    (hvs : ∀ v ∈ vs, ∀ x ∈ v, 0 ≤ x) (c : MatchCache)
    (hc : ∀ ch, cacheFind c 0 = some ch → ch = ' ') :
    ∀ ch, cacheFind (vs.foldl (fun c v => (findBestCharacter c v).2) c) 0 = some ch →
      ch = ' ' := by
  induction vs generalizing c with
  | nil => exact hc
  | cons v vs ih =>
      rw [List.foldl_cons]
      apply ih (fun w hw => hvs w (List.mem_cons_of_mem _ hw))
      intro ch hch
      rcases hfind : cacheFind c (generateCacheKey v) with _ | ch'
      · simp only [findBestCharacter, hfind] at hch
        simp only [cacheFind] at hch
        by_cases hkey : (0 : ℤ) = generateCacheKey v
        · rw [if_pos hkey] at hch
          have hsmall := generateCacheKey_eq_zero v
            (hvs v (List.mem_cons_self _ _)) hkey.symm
          have hscan := scanBest_small v
            (fun x hx => ⟨hvs v (List.mem_cons_self _ _) x hx, hsmall x hx⟩)
          rw [← Option.some_inj.mp hch, hscan]
        · rw [if_neg hkey] at hch
          exact hc ch hch
      · simp only [findBestCharacter, hfind] at hch
        exact hc ch hch

lemma callsFold_values (vs : List (List ℝ)) (c : MatchCache)
    (hc : ∀ k ch, cacheFind c k = some ch → ∃ w, ch = scanBest w) :
    ∀ k ch, cacheFind (vs.foldl (fun c v => (findBestCharacter c v).2) c) k = some ch →
      ∃ w, ch = scanBest w := by
  induction vs generalizing c with
  | nil => exact hc
  | cons v vs ih =>
      rw [List.foldl_cons]
      apply ih
      intro k ch hch
      rcases hfind : cacheFind c (generateCacheKey v) with _ | ch'
      · simp only [findBestCharacter, hfind] at hch
        simp only [cacheFind] at hch
        by_cases hkey : k = generateCacheKey v
        · rw [if_pos hkey] at hch
          exact ⟨v, (Option.some_inj.mp hch).symm⟩
        · rw [if_neg hkey] at hch
          exact hc k ch hch
      · simp only [findBestCharacter, hfind] at hch
        exact hc k ch hch

-- ============================================================================
-- Render-level machinery: cache vs. full-scan rendering
-- ============================================================================

/-- All cell vectors of one render, in row-major order. -/
noncomputable def cellVectors (img : ImageData) (o : RenderOptions) : List (List ℝ) :=
  (List.range o.rows).flatMap (fun row => (List.range o.cols).map (cellVector img o row))

/-- Every binding of the cache was produced by a full scan of some cell vector
of this render, keyed by that vector's quantized key. -/
def CacheGood (img : ImageData) (o : RenderOptions) (c : MatchCache) : Prop :=
  ∀ k ch, cacheFind c k = some ch →
    ∃ v ∈ cellVectors img o, generateCacheKey v = k ∧ scanBest v = ch

/-- No two cell vectors of the render share a quantized key while resolving to
different characters under the full scan. -/
def NoKeyCollision (img : ImageData) (o : RenderOptions) : Prop :=
  ∀ v₁ ∈ cellVectors img o, ∀ v₂ ∈ cellVectors img o,
    generateCacheKey v₁ = generateCacheKey v₂ → scanBest v₁ = scanBest v₂

lemma cellVector_mem (img : ImageData) (o : RenderOptions) (row col : ℕ)
    (hrow : row < o.rows) (hcol : col < o.cols) :
    cellVector img o row col ∈ cellVectors img o := by
  unfold cellVectors
  rw [List.mem_flatMap]
  exact ⟨row, List.mem_range.mpr hrow,
    List.mem_map.mpr ⟨col, List.mem_range.mpr hcol, rfl⟩⟩

set_option maxRecDepth 4000 in
lemma renderFold_spec (img : ImageData) (o : RenderOptions) (row : ℕ)
    (hrow : row < o.rows) (hcoll : NoKeyCollision img o) :
    ∀ (L : List ℕ), (∀ col ∈ L, col < o.cols) →
    ∀ (s : String) (c : MatchCache), CacheGood img o c →
    (L.foldl (fun acc col =>
        let r := findBestCharacter acc.2 (cellVector img o row col)
        (acc.1.push r.1, r.2)) (s, c)) =
      (L.foldl (fun line col => line.push (scanBest (cellVector img o row col))) s,
       (L.foldl (fun acc col =>
        let r := findBestCharacter acc.2 (cellVector img o row col)
        (acc.1.push r.1, r.2)) (s, c)).2) ∧
    CacheGood img o (L.foldl (fun acc col =>
        let r := findBestCharacter acc.2 (cellVector img o row col)
        (acc.1.push r.1, r.2)) (s, c)).2 := by
  intro L
  induction L generalizing row with
  | nil => intro _ s c hc; exact ⟨rfl, hc⟩
  | cons col L ih =>
      intro hL s c hc
      have hcol : col < o.cols := hL col (List.mem_cons_self _ _)
      have hv := cellVector_mem img o row col hrow hcol
      rw [List.foldl_cons, List.foldl_cons]
      rcases hfind : cacheFind c (generateCacheKey (cellVector img o row col))
        with _ | ch
      · -- miss: full scan, new binding recorded
        have hstep : findBestCharacter c (cellVector img o row col) =
            (scanBest (cellVector img o row col),
              (generateCacheKey (cellVector img o row col),
                scanBest (cellVector img o row col)) :: c) := by
          simp only [findBestCharacter, hfind]
        rw [hstep]
        refine ih row hrow (fun x hx => hL x (List.mem_cons_of_mem _ hx)) _ _ ?_
        intro k ch' hch'
        simp only [cacheFind] at hch'
        by_cases hk : k = generateCacheKey (cellVector img o row col)
        · rw [if_pos hk] at hch'
          exact ⟨cellVector img o row col, hv, hk.symm, Option.some_inj.mp hch'⟩
        · rw [if_neg hk] at hch'
          exact hc k ch' hch'
      · -- hit: the cached character agrees with this cell's own scan
        have hstep : findBestCharacter c (cellVector img o row col) = (ch, c) := by
          simp only [findBestCharacter, hfind]
        rw [hstep]
        obtain ⟨w, hw, hwk, hws⟩ := hc _ _ hfind
        have hch : ch = scanBest (cellVector img o row col) := by
          rw [← hws]
          exact (hcoll _ hv _ hw hwk.symm).symm
        rw [hch]
        exact ih row hrow (fun x hx => hL x (List.mem_cons_of_mem _ hx)) _ _ hc

set_option maxRecDepth 4000 in
lemma renderRows_spec (img : ImageData) (o : RenderOptions)
    (hcoll : NoKeyCollision img o) :
    ∀ (R : List ℕ), (∀ r ∈ R, r < o.rows) →
    ∀ (acc : List String) (c : MatchCache), CacheGood img o c →
    (R.foldl (fun acc row =>
        let lr := renderLine img o row ("", acc.2)
        (acc.1 ++ [lr.1], lr.2)) (acc, c)).1 =
      acc ++ R.map (fun row =>
        (List.range o.cols).foldl (fun line col =>
          line.push (scanBest (cellVector img o row col))) "") ∧
    CacheGood img o (R.foldl (fun acc row =>
        let lr := renderLine img o row ("", acc.2)
        (acc.1 ++ [lr.1], lr.2)) (acc, c)).2 := by
  intro R
  induction R with
  | nil => intro _ acc c hc; exact ⟨by simp, hc⟩
  | cons row R ih =>
      intro hR acc c hc
      have hrow : row < o.rows := hR row (List.mem_cons_self _ _)
      obtain ⟨hline, hc'⟩ := renderFold_spec img o row hrow hcoll
        (List.range o.cols) (fun x hx => List.mem_range.mp hx) "" c hc
      rw [List.foldl_cons, List.map_cons]
      have hrl : renderLine img o row ("", c) =
          ((List.range o.cols).foldl (fun line col =>
            line.push (scanBest (cellVector img o row col))) "",
           (renderLine img o row ("", c)).2) := by
        unfold renderLine
        exact hline
      rw [hrl]
      have hc2 : CacheGood img o (renderLine img o row ("", c)).2 := by
        unfold renderLine
        exact hc'
      obtain ⟨h1, h2⟩ := ih (fun x hx => hR x (List.mem_cons_of_mem _ hx))
        (acc ++ [(List.range o.cols).foldl (fun line col =>
          line.push (scanBest (cellVector img o row col))) ""])
        (renderLine img o row ("", c)).2 hc2
      refine ⟨?_, h2⟩
      rw [h1, List.append_assoc]
      rfl

lemma cacheGood_nil (img : ImageData) (o : RenderOptions) : CacheGood img o [] := by
  intro k ch h
  simp [cacheFind] at h

-- ============================================================================
-- Degenerate buffers: zero width or height
-- ============================================================================

lemma intRange_empty (a b : ℤ) (h : b < a) : intRange a b = [] := by
  unfold intRange
  have h0 : (b + 1 - a).toNat = 0 := by omega
  rw [h0]
  rfl

lemma diskPixels_degenerate (img : ImageData)
    (h : img.width = 0 ∨ img.height = 0) (cx cy radius : ℚ) :
    diskPixels img cx cy radius = [] := by
  simp only [diskPixels]
  rcases h with h | h
  · have hx : min (img.width - 1) ⌈cx + radius⌉ < max 0 ⌊cx - radius⌋ := by
      rw [h]
      omega
    rw [intRange_empty _ _ hx]
    simp
  · have hy : min (img.height - 1) ⌈cy + radius⌉ < max 0 ⌊cy - radius⌋ := by
      rw [h]
      omega
    rw [intRange_empty _ _ hy]
    simp

lemma sampleCircle_of_empty (img : ImageData) (cx cy radius : ℚ)
    (h : diskPixels img cx cy radius = []) :
    sampleCircle img cx cy radius = 0 := by
  unfold sampleCircle
  rw [h]
  rfl

lemma sampleCell_degenerate (img : ImageData)
    (h : img.width = 0 ∨ img.height = 0) (cellX cellY cellWidth cellHeight : ℚ) :
    sampleCell img cellX cellY cellWidth cellHeight = [0, 0, 0, 0, 0, 0] := by
  unfold sampleCell samplePositions
  simp only [List.map_cons, List.map_nil]
  rw [sampleCircle_of_empty _ _ _ _ (diskPixels_degenerate img h _ _ _),
    sampleCircle_of_empty _ _ _ _ (diskPixels_degenerate img h _ _ _),
    sampleCircle_of_empty _ _ _ _ (diskPixels_degenerate img h _ _ _),
    sampleCircle_of_empty _ _ _ _ (diskPixels_degenerate img h _ _ _),
    sampleCircle_of_empty _ _ _ _ (diskPixels_degenerate img h _ _ _),
    sampleCircle_of_empty _ _ _ _ (diskPixels_degenerate img h _ _ _)]

lemma castVec_zeros6 : castVec [0, 0, 0, 0, 0, 0] = [(0 : ℝ), 0, 0, 0, 0, 0] := by
  norm_num [castVec]

lemma enhanceContrast_zeros (e : ℝ) :
    enhanceContrast [(0 : ℝ), 0, 0, 0, 0, 0] e = [(0 : ℝ), 0, 0, 0, 0, 0] :=
  enhanceContrast_of_max_zero _ _ (by norm_num [maxComp])

lemma cellVector_degenerate (img : ImageData) (o : RenderOptions)
    (himg : img.width = 0 ∨ img.height = 0) (hinv : o.invert = false) (row col : ℕ) :
    cellVector img o row col = [(0 : ℝ), 0, 0, 0, 0, 0] := by
  simp only [cellVector]
  rw [sampleCell_degenerate img himg, hinv]
  simp only [Bool.false_eq_true, if_false, castVec_zeros6]
  exact enhanceContrast_zeros _

lemma generateCacheKey_zeros : generateCacheKey [(0 : ℝ), 0, 0, 0, 0, 0] = 0 := by
  norm_num [generateCacheKey, Int.floor_zero]

lemma scanBest_zeros : scanBest [(0 : ℝ), 0, 0, 0, 0, 0] = ' ' := by
  apply scanBest_small
  intro x hx
  simp only [List.mem_cons, List.not_mem_nil, or_false] at hx
  rcases hx with h | h | h | h | h | h <;> (subst h; norm_num)

lemma findBestCharacter_zeros_hit (c : MatchCache) (hc : cacheFind c 0 = some ' ') :
    findBestCharacter c [(0 : ℝ), 0, 0, 0, 0, 0] = (' ', c) := by
  simp only [findBestCharacter, generateCacheKey_zeros, hc]

lemma findBestCharacter_zeros_empty :
    findBestCharacter [] [(0 : ℝ), 0, 0, 0, 0, 0] = (' ', [(0, ' ')]) := by
  simp only [findBestCharacter, generateCacheKey_zeros, scanBest_zeros, cacheFind]

lemma string_data_eq {s t : String} (h : s.data = t.data) : s = t :=
  congrArg String.mk h

lemma renderFold_zeros_stable (img : ImageData) (o : RenderOptions) (row : ℕ)
    (L : List ℕ) (s : String) (c : MatchCache)
    (hcell : ∀ col, cellVector img o row col = [(0 : ℝ), 0, 0, 0, 0, 0])
    (hc : cacheFind c 0 = some ' ') :
    L.foldl (fun acc col =>
        let r := findBestCharacter acc.2 (cellVector img o row col)
        (acc.1.push r.1, r.2)) (s, c) =
      (String.mk (s.data ++ List.replicate L.length ' '), c) := by
  induction L generalizing s with
  | nil =>
      simp only [List.foldl_nil, List.replicate, List.append_nil]
  | cons col L ih =>
      rw [List.foldl_cons]
      simp only [hcell col, findBestCharacter_zeros_hit c hc]
      rw [ih (s.push ' ')]
      have hdata : (s.push ' ').data ++ List.replicate L.length ' ' =
          s.data ++ List.replicate (col :: L).length ' ' := by
        rw [String.data_push, List.length_cons, List.replicate_succ, List.append_assoc]
        rfl
      rw [hdata]

lemma renderLine_zeros_stable (img : ImageData) (o : RenderOptions) (row : ℕ)
    (c : MatchCache)
    (hcell : ∀ col, cellVector img o row col = [(0 : ℝ), 0, 0, 0, 0, 0])
    (hc : cacheFind c 0 = some ' ') :
    renderLine img o row ("", c) =
      (String.mk (List.replicate o.cols ' '), c) := by
  unfold renderLine
  rw [renderFold_zeros_stable img o row _ _ _ hcell hc]
  simp [List.length_range]

lemma renderFold_zeros_empty (img : ImageData) (o : RenderOptions) (row : ℕ)
    (L : List ℕ) (s : String)
    (hcell : ∀ col, cellVector img o row col = [(0 : ℝ), 0, 0, 0, 0, 0])
    (hL : L ≠ []) :
    L.foldl (fun acc col =>
        let r := findBestCharacter acc.2 (cellVector img o row col)
        (acc.1.push r.1, r.2)) (s, []) =
      (String.mk (s.data ++ List.replicate L.length ' '), [(0, ' ')]) := by
  cases L with
  | nil => exact absurd rfl hL
  | cons col L' =>
      rw [List.foldl_cons]
      simp only [hcell col, findBestCharacter_zeros_empty]
      rw [renderFold_zeros_stable img o row L' (s.push ' ') [(0, ' ')] hcell
        (by simp [cacheFind])]
      have hdata : (s.push ' ').data ++ List.replicate L'.length ' ' =
          s.data ++ List.replicate (col :: L').length ' ' := by
        rw [String.data_push, List.length_cons, List.replicate_succ, List.append_assoc]
        rfl
      rw [hdata]

lemma renderLine_zeros_empty (img : ImageData) (o : RenderOptions) (row : ℕ)
    (hcols : 0 < o.cols)
    (hcell : ∀ col, cellVector img o row col = [(0 : ℝ), 0, 0, 0, 0, 0]) :
    renderLine img o row ("", []) =
      (String.mk (List.replicate o.cols ' '), [(0, ' ')]) := by
  unfold renderLine
  rw [renderFold_zeros_empty img o row _ _ hcell
    (by simp [List.range_eq_nil]; omega)]
  simp [List.length_range]

lemma renderRows_zeros_stable (img : ImageData) (o : RenderOptions)
    (R : List ℕ) (acc : List String) (c : MatchCache)
    (hcell : ∀ row col, cellVector img o row col = [(0 : ℝ), 0, 0, 0, 0, 0])
    (hc : cacheFind c 0 = some ' ') :
    R.foldl (fun acc row =>
        let lr := renderLine img o row ("", acc.2)
        (acc.1 ++ [lr.1], lr.2)) (acc, c) =
      (acc ++ List.replicate R.length (String.mk (List.replicate o.cols ' ')), c) := by
  induction R generalizing acc with
  | nil => simp
  | cons row R ih =>
      rw [List.foldl_cons]
      simp only [renderLine_zeros_stable img o row c (hcell row) hc]
      rw [ih (acc ++ [String.mk (List.replicate o.cols ' ')])]
      rw [List.append_assoc, List.length_cons, List.replicate_succ]
      rfl

lemma renderToAscii_degenerate_blank (img : ImageData) (o : RenderOptions)
    (himg : img.width = 0 ∨ img.height = 0) (hinv : o.invert = false)
    (hcols : 0 < o.cols) (hrows : 0 < o.rows) :
    (renderToAscii img o []).1 =
      String.intercalate "\n"
        (List.replicate o.rows (String.mk (List.replicate o.cols ' '))) := by
  have hcell : ∀ row col, cellVector img o row col = [(0 : ℝ), 0, 0, 0, 0, 0] :=
    fun row col => cellVector_degenerate img o himg hinv row col
  unfold renderToAscii
  rcases hR : List.range o.rows with _ | ⟨r0, R'⟩
  · rw [List.range_eq_nil] at hR
    omega
  · have hlen : R'.length + 1 = o.rows := by
      have := List.length_range o.rows
      rw [hR] at this
      simpa using this
    simp only [List.foldl_cons]
    rw [renderLine_zeros_empty img o r0 hcols (hcell r0)]
    rw [renderRows_zeros_stable img o R' _ _ hcell (by simp [cacheFind])]
    simp only [List.nil_append]
    rw [List.singleton_append, ← List.replicate_succ, hlen]

-- ============================================================================
-- Output shape: rows lines of cols characters
-- ============================================================================

lemma renderFold_length (img : ImageData) (o : RenderOptions) (row : ℕ)
    (L : List ℕ) (s : String) (c : MatchCache) :
    ((L.foldl (fun acc col =>
        let r := findBestCharacter acc.2 (cellVector img o row col)
        (acc.1.push r.1, r.2)) (s, c)).1).length = s.length + L.length := by
  induction L generalizing s c with
  | nil => simp
  | cons col L' ih =>
      rw [List.foldl_cons, ih]
      simp only [String.length_push, List.length_cons]
      omega

lemma renderLine_length (img : ImageData) (o : RenderOptions) (row : ℕ)
    (c : MatchCache) : ((renderLine img o row ("", c)).1).length = o.cols := by
  unfold renderLine
  rw [renderFold_length]
  simp [List.length_range]

lemma renderRows_shape (img : ImageData) (o : RenderOptions)
    (R : List ℕ) (acc : List String) (c : MatchCache) :
    ((R.foldl (fun acc row =>
        let lr := renderLine img o row ("", acc.2)
        (acc.1 ++ [lr.1], lr.2)) (acc, c)).1).length = acc.length + R.length ∧
    ∀ l ∈ (R.foldl (fun acc row =>
        let lr := renderLine img o row ("", acc.2)
        (acc.1 ++ [lr.1], lr.2)) (acc, c)).1, l ∈ acc ∨ l.length = o.cols := by
  induction R generalizing acc c with
  | nil => exact ⟨by simp, fun l hl => Or.inl hl⟩
  | cons row R ih =>
      rw [List.foldl_cons]
      obtain ⟨h1, h2⟩ := ih (acc ++ [(renderLine img o row ("", c)).1])
        (renderLine img o row ("", c)).2
      refine ⟨by rw [h1]; simp; omega, ?_⟩
      intro l hl
      rcases h2 l hl with hmem | hlen
      · rcases List.mem_append.mp hmem with h | h
        · exact Or.inl h
        · right
          rw [List.mem_singleton.mp h]
          exact renderLine_length img o row c
      · exact Or.inr hlen

-- ============================================================================
-- Sampling bounds (C9) and complement lemmas (C3)
-- ============================================================================

lemma byteAt_le (d : List ℕ) (i : ℤ) (hd : ∀ b ∈ d, b ≤ 255) : byteAt d i ≤ 255 := by
  unfold byteAt
  split
  · omega
  · rcases lt_or_le i.toNat d.length with h | h
    · rw [List.getD_eq_getElem d 0 h]
      exact hd _ (List.getElem_mem h)
    · rw [List.getD_eq_default d 0 h]
      omega

lemma lum_nonneg (r g b : ℕ) : 0 ≤ lum r g b := by
  unfold lum
  positivity

lemma lum_le_255 (r g b : ℕ) (hr : r ≤ 255) (hg : g ≤ 255) (hb : b ≤ 255) :
    lum r g b ≤ 255 := by
  unfold lum
  have h1 : (r : ℚ) ≤ 255 := by exact_mod_cast hr
  have h2 : (g : ℚ) ≤ 255 := by exact_mod_cast hg
  have h3 : (b : ℚ) ≤ 255 := by exact_mod_cast hb
  norm_num
  linarith

lemma lumAt_nonneg (img : ImageData) (p : ℤ × ℤ) : 0 ≤ lumAt img p :=
  lum_nonneg _ _ _

lemma lumAt_le_255 (img : ImageData) (hd : ∀ b ∈ img.data, b ≤ 255) (p : ℤ × ℤ) :
    lumAt img p ≤ 255 :=
  lum_le_255 _ _ _ (byteAt_le _ _ hd) (byteAt_le _ _ hd) (byteAt_le _ _ hd)

lemma sampleCircle_nonneg (img : ImageData) (cx cy radius : ℚ) :
    0 ≤ sampleCircle img cx cy radius := by
  simp only [sampleCircle]
  split
  · norm_num
  · have hsum : 0 ≤ ((diskPixels img cx cy radius).map (lumAt img)).sum := by
      apply List.sum_nonneg
      intro x hx
      obtain ⟨p, _, rfl⟩ := List.mem_map.mp hx
      exact lumAt_nonneg img p
    positivity

lemma sampleCircle_le_one (img : ImageData) (hd : ∀ b ∈ img.data, b ≤ 255)
    (cx cy radius : ℚ) : sampleCircle img cx cy radius ≤ 1 := by
  simp only [sampleCircle]
  split
  · norm_num
  · rename_i hne
    have hpos : 0 < ((diskPixels img cx cy radius).length : ℚ) := by
      have : 0 < (diskPixels img cx cy radius).length := Nat.pos_of_ne_zero hne
      exact_mod_cast this
    have hsum : ((diskPixels img cx cy radius).map (lumAt img)).sum ≤
        ((diskPixels img cx cy radius).map (lumAt img)).length • (255 : ℚ) := by
      apply List.sum_le_card_nsmul
      intro x hx
      obtain ⟨p, _, rfl⟩ := List.mem_map.mp hx
      exact lumAt_le_255 img hd p
    rw [List.length_map] at hsum
    rw [div_le_one (by norm_num), div_le_iff hpos]
    rw [nsmul_eq_mul] at hsum
    linarith

lemma sampleCell_length (img : ImageData) (cellX cellY cellWidth cellHeight : ℚ) :
    (sampleCell img cellX cellY cellWidth cellHeight).length = 6 := by
  unfold sampleCell samplePositions
  simp

lemma sampleCell_bounds (img : ImageData) (hd : ∀ b ∈ img.data, b ≤ 255)
    (cellX cellY cellWidth cellHeight : ℚ) :
    ∀ x ∈ sampleCell img cellX cellY cellWidth cellHeight, 0 ≤ x ∧ x ≤ 1 := by
  intro x hx
  unfold sampleCell at hx
  obtain ⟨pos, _, rfl⟩ := List.mem_map.mp hx
  exact ⟨sampleCircle_nonneg _ _ _ _, sampleCircle_le_one _ hd _ _ _⟩

lemma mem_intRange (a b x : ℤ) (hx : x ∈ intRange a b) : a ≤ x ∧ x ≤ b := by
  unfold intRange at hx
  obtain ⟨n, hn, rfl⟩ := List.mem_map.mp hx
  rw [List.mem_range] at hn
  omega

lemma diskPixels_mem_bounds (img : ImageData) (cx cy radius : ℚ) (p : ℤ × ℤ)
    (hp : p ∈ diskPixels img cx cy radius) :
    0 ≤ p.1 ∧ p.1 ≤ img.width - 1 ∧ 0 ≤ p.2 ∧ p.2 ≤ img.height - 1 := by
  simp only [diskPixels] at hp
  have hp' := List.mem_of_mem_filter hp
  rw [List.mem_flatMap] at hp'
  obtain ⟨y, hy, hxy⟩ := hp'
  obtain ⟨x, hx, rfl⟩ := List.mem_map.mp hxy
  obtain ⟨hy1, hy2⟩ := mem_intRange _ _ _ hy
  obtain ⟨hx1, hx2⟩ := mem_intRange _ _ _ hx
  simp only []
  omega

lemma complement_dims (img : ImageData) :
    (complementImage img).width = img.width ∧
    (complementImage img).height = img.height := ⟨rfl, rfl⟩

lemma complement_byteAt (img : ImageData) (i : ℤ) (h0 : 0 ≤ i)
    (hi : i.toNat < img.data.length) :
    byteAt (complementImage img).data i =
      if i.toNat % 4 < 3 then 255 - byteAt img.data i else byteAt img.data i := by
  have hnl : ¬(i < 0) := not_lt.mpr h0
  unfold byteAt
  simp only [complementImage]
  rw [if_neg hnl, if_neg hnl]
  have hlen2 : i.toNat < (List.ofFn (fun j : Fin img.data.length =>
      if (j : ℕ) % 4 < 3 then 255 - img.data.get j else img.data.get j)).length := by
    simpa using hi
  rw [List.getD_eq_getElem _ 0 hlen2, List.getElem_ofFn]
  rw [List.getD_eq_getElem _ 0 hi]
  simp [List.get_eq_getElem]

lemma lumAt_complement (img : ImageData) (p : ℤ × ℤ)
    (hx : 0 ≤ p.1) (hxw : p.1 ≤ img.width - 1) (hy : 0 ≤ p.2)
    (hyh : p.2 ≤ img.height - 1)
    (hlen : (img.data.length : ℤ) = img.width * img.height * 4)
    (hbytes : ∀ b ∈ img.data, b ≤ 255) :
    lumAt (complementImage img) p = 255 - lumAt img p := by
  have hk0 : 0 ≤ p.2 * img.width + p.1 := by nlinarith
  have hk1 : p.2 * img.width + p.1 ≤ img.width * img.height - 1 := by nlinarith
  simp only [lumAt]
  have hwidth : (complementImage img).width = img.width := rfl
  rw [hwidth]
  have hA : 0 ≤ (p.2 * img.width + p.1) * 4 := by linarith
  have hB : (p.2 * img.width + p.1) * 4 + 2 < (img.data.length : ℤ) := by
    rw [hlen]
    linarith
  have hC : ((p.2 * img.width + p.1) * 4) % 4 = 0 := Int.mul_emod_left _ _
  rw [complement_byteAt img _ hA (by omega),
    complement_byteAt img _ (by omega) (by omega),
    complement_byteAt img _ (by omega) (by omega)]
  rw [if_pos (by omega), if_pos (by omega), if_pos (by omega)]
  have hr := byteAt_le img.data ((p.2 * img.width + p.1) * 4) hbytes
  have hg := byteAt_le img.data ((p.2 * img.width + p.1) * 4 + 1) hbytes
  have hb := byteAt_le img.data ((p.2 * img.width + p.1) * 4 + 2) hbytes
  unfold lum
  push_cast [Nat.cast_sub hr, Nat.cast_sub hg, Nat.cast_sub hb]
  ring

lemma sum_map_const_sub (l : List (ℤ × ℤ)) (f : ℤ × ℤ → ℚ) :
    (l.map (fun p => 255 - f p)).sum = 255 * l.length - (l.map f).sum := by
  induction l with
  | nil => simp
  | cons p l ih =>
      simp only [List.map_cons, List.sum_cons, List.length_cons, ih]
      push_cast
      ring

lemma sampleCircle_complement (img : ImageData) (cx cy radius : ℚ)
    (hlen : (img.data.length : ℤ) = img.width * img.height * 4)
    (hbytes : ∀ b ∈ img.data, b ≤ 255)
    (hne : diskPixels img cx cy radius ≠ []) :
    sampleCircle (complementImage img) cx cy radius =
      1 - sampleCircle img cx cy radius := by
  have hdp : diskPixels (complementImage img) cx cy radius =
      diskPixels img cx cy radius := rfl
  simp only [sampleCircle, hdp]
  have hlne : ¬((diskPixels img cx cy radius).length = 0) := by
    intro h
    exact hne (List.length_eq_zero.mp h)
  rw [if_neg hlne, if_neg hlne]
  have hmap : (diskPixels img cx cy radius).map (lumAt (complementImage img)) =
      (diskPixels img cx cy radius).map (fun p => 255 - lumAt img p) := by
    apply List.map_congr_left
    intro p hp
    obtain ⟨h1, h2, h3, h4⟩ := diskPixels_mem_bounds img cx cy radius p hp
    exact lumAt_complement img p h1 h2 h3 h4 hlen hbytes
  rw [hmap, sum_map_const_sub]
  have hposlen : (0 : ℚ) < (diskPixels img cx cy radius).length := by
    have : 0 < (diskPixels img cx cy radius).length := Nat.pos_of_ne_zero hlne
    exact_mod_cast this
  field_simp
  ring

lemma sampleCell_complement (img : ImageData)
    (hlen : (img.data.length : ℤ) = img.width * img.height * 4)
    (hbytes : ∀ b ∈ img.data, b ≤ 255) (cellX cellY cellWidth cellHeight : ℚ)
    (hne : ∀ pos ∈ samplePositions,
      diskPixels img (cellX + pos.1 * cellWidth) (cellY + pos.2 * cellHeight)
        (min cellWidth cellHeight * 0.15) ≠ []) :
    sampleCell (complementImage img) cellX cellY cellWidth cellHeight =
      (sampleCell img cellX cellY cellWidth cellHeight).map (fun v => 1 - v) := by
  simp only [sampleCell]
  rw [List.map_map]
  apply List.map_congr_left
  intro pos hpos
  exact sampleCircle_complement img _ _ _ hlen hbytes (hne pos hpos)

/-- Every sampling disk of the render grid contains at least one pixel. -/
def AllDisksNonempty (img : ImageData) (o : RenderOptions) : Prop :=
  ∀ row < o.rows, ∀ col < o.cols, ∀ pos ∈ samplePositions,
    diskPixels img
      ((col : ℚ) * ((img.width : ℚ) / o.cols) + pos.1 * ((img.width : ℚ) / o.cols))
      ((row : ℚ) * ((img.height : ℚ) / o.rows) + pos.2 * ((img.height : ℚ) / o.rows))
      (min ((img.width : ℚ) / o.cols) ((img.height : ℚ) / o.rows) * 0.15) ≠ []

lemma cellVector_complement (img : ImageData) (o : RenderOptions)
    (hinv : o.invert = false)
    (hlen : (img.data.length : ℤ) = img.width * img.height * 4)
    (hbytes : ∀ b ∈ img.data, b ≤ 255) (hall : AllDisksNonempty img o)
    (row col : ℕ) (hrow : row < o.rows) (hcol : col < o.cols) :
    cellVector (complementImage img) o row col =
      cellVector img { o with invert := true } row col := by
  simp only [cellVector]
  have hW : ((complementImage img).width : ℤ) = img.width := rfl
  have hH : ((complementImage img).height : ℤ) = img.height := rfl
  rw [hW, hH]
  rw [sampleCell_complement img hlen hbytes _ _ _ _ (hall row hrow col hcol)]
  rw [hinv]
  simp only [Bool.false_eq_true, if_false, if_true]

lemma foldl_congr_mem {α β : Type} (l : List α) (f g : β → α → β) (b : β)
    (h : ∀ acc, ∀ x ∈ l, f acc x = g acc x) : l.foldl f b = l.foldl g b := by
  induction l generalizing b with
  | nil => rfl
  | cons x xs ih =>
      rw [List.foldl_cons, List.foldl_cons, h b x (List.mem_cons_self _ _)]
      exact ih _ (fun acc y hy => h acc y (List.mem_cons_of_mem _ hy))

lemma renderToAscii_congr (img₁ img₂ : ImageData) (o₁ o₂ : RenderOptions)
    (hcols : o₁.cols = o₂.cols) (hrows : o₁.rows = o₂.rows)
    (hcell : ∀ row col, row < o₁.rows → col < o₁.cols →
      cellVector img₁ o₁ row col = cellVector img₂ o₂ row col)
    (c : MatchCache) :
    renderToAscii img₁ o₁ c = renderToAscii img₂ o₂ c := by
  unfold renderToAscii renderLine
  rw [← hcols, ← hrows]
  have hfold : (List.range o₁.rows).foldl (fun acc row =>
      let lr := (List.range o₁.cols).foldl (fun acc col =>
        let r := findBestCharacter acc.2 (cellVector img₁ o₁ row col)
        (acc.1.push r.1, r.2)) ("", acc.2)
      (acc.1 ++ [lr.1], lr.2)) (([] : List String), c) =
    (List.range o₁.rows).foldl (fun acc row =>
      let lr := (List.range o₁.cols).foldl (fun acc col =>
        let r := findBestCharacter acc.2 (cellVector img₂ o₂ row col)
        (acc.1.push r.1, r.2)) ("", acc.2)
      (acc.1 ++ [lr.1], lr.2)) (([] : List String), c) := by
    apply foldl_congr_mem
    intro acc row hrowmem
    have hrow : row < o₁.rows := List.mem_range.mp hrowmem
    have hline : (List.range o₁.cols).foldl (fun acc col =>
        let r := findBestCharacter acc.2 (cellVector img₁ o₁ row col)
        (acc.1.push r.1, r.2)) ("", acc.2) =
      (List.range o₁.cols).foldl (fun acc col =>
        let r := findBestCharacter acc.2 (cellVector img₂ o₂ row col)
        (acc.1.push r.1, r.2)) ("", acc.2) := by
      apply foldl_congr_mem
      intro acc2 col hcolmem
      rw [hcell row col hrow (List.mem_range.mp hcolmem)]
    rw [hline]
  rw [hfold]

lemma render_complement_invert (img : ImageData) (o : RenderOptions)
    (hinv : o.invert = false)
    (hlen : (img.data.length : ℤ) = img.width * img.height * 4)
    (hbytes : ∀ b ∈ img.data, b ≤ 255) (hall : AllDisksNonempty img o)
    (c : MatchCache) :
    renderToAscii (complementImage img) o c =
      renderToAscii img { o with invert := true } c := by
  apply renderToAscii_congr
  · rfl
  · rfl
  · intro row col hrow hcol
    exact cellVector_complement img o hinv hlen hbytes hall row col hrow hcol

-- ============================================================================
-- Concrete buffers and evaluation helpers
-- ============================================================================

lemma mem_intRange_iff (a b x : ℤ) : x ∈ intRange a b ↔ a ≤ x ∧ x ≤ b := by
  unfold intRange
  simp only [List.mem_map, List.mem_range]
  constructor
  · rintro ⟨n, hn, rfl⟩
    omega
  · rintro ⟨h1, h2⟩
    exact ⟨(x - a).toNat, by omega, by omega⟩

lemma mem_diskPixels_iff (img : ImageData) (cx cy radius : ℚ) (p : ℤ × ℤ) :
    p ∈ diskPixels img cx cy radius ↔
      (max 0 ⌊cx - radius⌋ ≤ p.1 ∧ p.1 ≤ min (img.width - 1) ⌈cx + radius⌉) ∧
      (max 0 ⌊cy - radius⌋ ≤ p.2 ∧ p.2 ≤ min (img.height - 1) ⌈cy + radius⌉) ∧
      ((p.1 : ℚ) - cx) ^ 2 + ((p.2 : ℚ) - cy) ^ 2 ≤ radius ^ 2 := by
  simp only [diskPixels, List.mem_filter, List.mem_flatMap, List.mem_map,
    mem_intRange_iff, decide_eq_true_eq]
  constructor
  · rintro ⟨⟨y, hy, x, hx, rfl⟩, hcond⟩
    exact ⟨hx, hy, hcond⟩
  · rintro ⟨hx, hy, hcond⟩
    exact ⟨⟨p.2, hy, p.1, hx, rfl⟩, hcond⟩

lemma diskPixels_empty_of_far (img : ImageData) (cx cy radius : ℚ)
    (h : ∀ p : ℤ × ℤ, radius ^ 2 < ((p.1 : ℚ) - cx) ^ 2 + ((p.2 : ℚ) - cy) ^ 2) :
    diskPixels img cx cy radius = [] := by
  rw [List.eq_nil_iff_forall_not_mem]
  intro p hp
  obtain ⟨_, _, hcond⟩ := (mem_diskPixels_iff img cx cy radius p).mp hp
  exact absurd hcond (not_le.mpr (h p))

lemma sampleCell_all_empty (img : ImageData) (cellX cellY cellWidth cellHeight : ℚ)
    (h : ∀ pos ∈ samplePositions,
      diskPixels img (cellX + pos.1 * cellWidth) (cellY + pos.2 * cellHeight)
        (min cellWidth cellHeight * 0.15) = []) :
    sampleCell img cellX cellY cellWidth cellHeight = [0, 0, 0, 0, 0, 0] := by
  simp only [sampleCell]
  have hmap : samplePositions.map (fun pos => sampleCircle img
      (cellX + pos.1 * cellWidth) (cellY + pos.2 * cellHeight)
      (min cellWidth cellHeight * 0.15)) =
    samplePositions.map (fun pos => (0 : ℚ)) :=
    List.map_congr_left (fun pos hpos => sampleCircle_of_empty _ _ _ _ (h pos hpos))
  rw [hmap]
  rfl

lemma sampleCircle_zero_of_black (img : ImageData) (cx cy radius : ℚ)
    (h : ∀ p ∈ diskPixels img cx cy radius, lumAt img p = 0) :
    sampleCircle img cx cy radius = 0 := by
  simp only [sampleCircle]
  split
  · rfl
  · have hmap : (diskPixels img cx cy radius).map (lumAt img) =
        (diskPixels img cx cy radius).map (fun p => (0 : ℚ)) :=
      List.map_congr_left h
    rw [hmap]
    simp

lemma sampleCircle_const (img : ImageData) (cx cy radius : ℚ) (v : ℚ)
    (hne : diskPixels img cx cy radius ≠ [])
    (h : ∀ p ∈ diskPixels img cx cy radius, lumAt img p = v) :
    sampleCircle img cx cy radius = v / 255 := by
  simp only [sampleCircle]
  rw [if_neg (fun h0 => hne (List.length_eq_zero.mp h0))]
  have hmap : (diskPixels img cx cy radius).map (lumAt img) =
      (diskPixels img cx cy radius).map (fun p => v) :=
    List.map_congr_left h
  rw [hmap]
  have hlen : (0 : ℚ) < (diskPixels img cx cy radius).length := by
    have : 0 < (diskPixels img cx cy radius).length :=
      List.length_pos.mpr hne
    exact_mod_cast this
  rw [List.map_const', List.sum_replicate, nsmul_eq_mul]
  have hne' : ((diskPixels img cx cy radius).length : ℚ) ≠ 0 := ne_of_gt hlen
  field_simp

lemma mkBuf_byteAt (w h : ℕ) (f : ℕ → ℕ → ℕ) (x y j : ℕ)
    (hx : x < w) (hy : y < h) (hj : j < 4) :
    byteAt (mkBuf w h f).data (((y : ℤ) * (w : ℤ) + (x : ℤ)) * 4 + (j : ℤ)) =
      if j < 3 then f x y else 255 := by
  unfold byteAt mkBuf
  have hidx : ((y : ℤ) * (w : ℤ) + (x : ℤ)) * 4 + (j : ℤ) =
      (((y * w + x) * 4 + j : ℕ) : ℤ) := by push_cast; ring
  rw [hidx, if_neg (by omega), Int.toNat_natCast]
  have hk : y * w + x < w * h := by
    calc y * w + x < y * w + w := by omega
    _ = (y + 1) * w := by ring
    _ ≤ h * w := Nat.mul_le_mul_right w (by omega)
    _ = w * h := Nat.mul_comm h w
  have hlt : (y * w + x) * 4 + j < w * h * 4 := by omega
  rw [List.getD_eq_getElem _ 0 (by simpa using hlt), List.getElem_ofFn]
  have hdiv : ((y * w + x) * 4 + j) / 4 = y * w + x := by omega
  have hmod : ((y * w + x) * 4 + j) % 4 = j := by omega
  simp only [hdiv, hmod]
  have hmw : (y * w + x) % w = x := by
    rw [Nat.mul_comm y w, Nat.mul_add_mod]
    exact Nat.mod_eq_of_lt hx
  have hdw : (y * w + x) / w = y := by
    rw [Nat.mul_comm y w, Nat.mul_add_div (by omega), Nat.div_eq_of_lt hx]
    omega
  rw [hmw, hdw]

lemma lumAt_mkBuf (w h : ℕ) (f : ℕ → ℕ → ℕ) (p : ℤ × ℤ)
    (hx : 0 ≤ p.1) (hxw : p.1 < (w : ℤ)) (hy : 0 ≤ p.2) (hyh : p.2 < (h : ℤ)) :
    lumAt (mkBuf w h f) p = f p.1.toNat p.2.toNat := by
  simp only [lumAt]
  have hwidth : (mkBuf w h f).width = (w : ℤ) := rfl
  rw [hwidth]
  have hp1 : p.1 = ((p.1.toNat : ℕ) : ℤ) := (Int.toNat_of_nonneg hx).symm
  have hp2 : p.2 = ((p.2.toNat : ℕ) : ℤ) := (Int.toNat_of_nonneg hy).symm
  have hx' : p.1.toNat < w := by omega
  have hy' : p.2.toNat < h := by omega
  have h0 : (p.2 * (w : ℤ) + p.1) * 4 =
      ((p.2.toNat : ℤ) * (w : ℤ) + (p.1.toNat : ℤ)) * 4 + ((0 : ℕ) : ℤ) := by
    rw [← hp1, ← hp2]
    push_cast
    ring
  have h1 : (p.2 * (w : ℤ) + p.1) * 4 + 1 =
      ((p.2.toNat : ℤ) * (w : ℤ) + (p.1.toNat : ℤ)) * 4 + ((1 : ℕ) : ℤ) := by
    rw [← hp1, ← hp2]
    push_cast
    ring
  have h2 : (p.2 * (w : ℤ) + p.1) * 4 + 2 =
      ((p.2.toNat : ℤ) * (w : ℤ) + (p.1.toNat : ℤ)) * 4 + ((2 : ℕ) : ℤ) := by
    rw [← hp1, ← hp2]
    push_cast
    ring
  rw [h2, h1, h0]
  rw [mkBuf_byteAt w h f _ _ 0 hx' hy' (by omega),
    mkBuf_byteAt w h f _ _ 1 hx' hy' (by omega),
    mkBuf_byteAt w h f _ _ 2 hx' hy' (by omega)]
  simp only [if_pos (by omega : (0 : ℕ) < 3), if_pos (by omega : (1 : ℕ) < 3),
    if_pos (by omega : (2 : ℕ) < 3)]
  unfold lum
  push_cast
  ring

lemma mem_diskPixels_of_cond (img : ImageData) (cx cy radius : ℚ) (hr : 0 ≤ radius)
    (p : ℤ × ℤ)
    (h0x : 0 ≤ p.1) (hxw : p.1 ≤ img.width - 1)
    (h0y : 0 ≤ p.2) (hyh : p.2 ≤ img.height - 1)
    (hcond : ((p.1 : ℚ) - cx) ^ 2 + ((p.2 : ℚ) - cy) ^ 2 ≤ radius ^ 2) :
    p ∈ diskPixels img cx cy radius := by
  rw [mem_diskPixels_iff]
  have hxlo : cx - radius ≤ (p.1 : ℚ) := by nlinarith [sq_nonneg ((p.2 : ℚ) - cy), hr]
  have hxhi : (p.1 : ℚ) ≤ cx + radius := by nlinarith [sq_nonneg ((p.2 : ℚ) - cy), hr]
  have hylo : cy - radius ≤ (p.2 : ℚ) := by nlinarith [sq_nonneg ((p.1 : ℚ) - cx), hr]
  have hyhi : (p.2 : ℚ) ≤ cy + radius := by nlinarith [sq_nonneg ((p.1 : ℚ) - cx), hr]
  have hfx : ⌊cx - radius⌋ ≤ p.1 := by
    have h2 := Int.floor_mono hxlo
    rwa [Int.floor_intCast] at h2
  have hcx : p.1 ≤ ⌈cx + radius⌉ := by
    have h2 : (p.1 : ℚ) ≤ (⌈cx + radius⌉ : ℚ) := le_trans hxhi (Int.le_ceil _)
    exact_mod_cast h2
  have hfy : ⌊cy - radius⌋ ≤ p.2 := by
    have h2 := Int.floor_mono hylo
    rwa [Int.floor_intCast] at h2
  have hcy : p.2 ≤ ⌈cy + radius⌉ := by
    have h2 : (p.2 : ℚ) ≤ (⌈cy + radius⌉ : ℚ) := le_trans hyhi (Int.le_ceil _)
    exact_mod_cast h2
  exact ⟨⟨max_le h0x hfx, le_min hxw hcx⟩, ⟨max_le h0y hfy, le_min hyh hcy⟩, hcond⟩

lemma x_half_sq (a : ℤ) : (1 / 4 : ℚ) ≤ ((a : ℚ) - 1 / 2) ^ 2 := by
  rcases le_or_lt a 0 with h | h
  · have h2 : (a : ℚ) ≤ 0 := by exact_mod_cast h
    nlinarith
  · have h2 : (1 : ℚ) ≤ (a : ℚ) := by exact_mod_cast h
    nlinarith

lemma x_three_half_sq (a : ℤ) : (1 / 4 : ℚ) ≤ ((a : ℚ) - 3 / 2) ^ 2 := by
  rcases le_or_lt a 1 with h | h
  · have h2 : (a : ℚ) ≤ 1 := by exact_mod_cast h
    nlinarith
  · have h2 : (2 : ℚ) ≤ (a : ℚ) := by exact_mod_cast h
    nlinarith

/-- A disk whose centre lies half a pixel off the integer grid in x, with
radius below 1/2, catches no pixels. -/
lemma disk_empty_half (img : ImageData) (cx cy radius : ℚ)
    (hcx : cx = 1 / 2 ∨ cx = 3 / 2) (hr : radius ^ 2 < 1 / 4) :
    diskPixels img cx cy radius = [] := by
  apply diskPixels_empty_of_far
  intro p
  rcases hcx with rfl | rfl
  · nlinarith [x_half_sq p.1, sq_nonneg ((p.2 : ℚ) - cy)]
  · nlinarith [x_three_half_sq p.1, sq_nonneg ((p.2 : ℚ) - cy)]

/-- The all-white 2×2 test buffer of the specification scenario: every pixel
is `(255, 255, 255, 255)`. -/
def white2x2 : ImageData := mkBuf 2 2 (fun _ _ => 255)

lemma cellVector_2x2_blank (img : ImageData) (e : ℝ) (inv : Bool)
    (hw : img.width = 2) (hh : img.height = 2) :
    cellVector img ⟨1, 1, e, inv⟩ 0 0 =
      (if inv then [(1 : ℝ), 1, 1, 1, 1, 1] else [(0 : ℝ), 0, 0, 0, 0, 0]) := by
  simp only [cellVector]
  rw [hw, hh]
  rw [sampleCell_all_empty img _ _ _ _ ?hdisks]
  case hdisks =>
    intro pos hpos
    apply disk_empty_half img
    · fin_cases hpos <;> norm_num
    · norm_num
  cases inv
  · simp only [Bool.false_eq_true, if_false]
    rw [castVec_zeros6]
    exact enhanceContrast_zeros e
  · simp only [if_true]
    have hmap : ([0, 0, 0, 0, 0, 0] : List ℚ).map (fun v => 1 - v) =
        [1, 1, 1, 1, 1, 1] := by norm_num
    rw [hmap, castVec_ones]
    exact enhanceContrast_ones e

/-- Paint function for the cache-collision test buffer: black above row 6; on
rows 6-7, gray level 24 for columns 0-3 and gray level 31 for columns 9-11. -/
def grayPaint (x y : ℕ) : ℕ :=
  if y < 6 then 0 else if x ≤ 3 then 24 else if 9 ≤ x ∧ x ≤ 11 then 31 else 0

/-- 16×8 test buffer whose two render cells (2×1 grid) sample vectors that
share a quantized cache key but scan to different characters. -/
def grayBuf : ImageData := mkBuf 16 8 grayPaint

lemma grayBuf_lumAt (p : ℤ × ℤ) (h0x : 0 ≤ p.1) (hxw : p.1 < 16)
    (h0y : 0 ≤ p.2) (hyh : p.2 < 8) :
    lumAt grayBuf p = if p.2 < 6 then 0 else if p.1 ≤ 3 then 24
      else if 9 ≤ p.1 ∧ p.1 ≤ 11 then 31 else 0 := by
  have h2 : lumAt grayBuf p = grayPaint p.1.toNat p.2.toNat :=
    lumAt_mkBuf 16 8 grayPaint p h0x (by exact_mod_cast hxw) h0y (by exact_mod_cast hyh)
  rw [h2]
  unfold grayPaint
  by_cases hy6 : p.2 < 6
  · rw [if_pos (show p.2.toNat < 6 by omega), if_pos hy6]
    norm_num
  · rw [if_neg (show ¬(p.2.toNat < 6) by omega), if_neg hy6]
    by_cases hx3 : p.1 ≤ 3
    · rw [if_pos (show p.1.toNat ≤ 3 by omega), if_pos hx3]
      norm_num
    · rw [if_neg (show ¬(p.1.toNat ≤ 3) by omega), if_neg hx3]
      by_cases hx911 : 9 ≤ p.1 ∧ p.1 ≤ 11
      · rw [if_pos (show 9 ≤ p.1.toNat ∧ p.1.toNat ≤ 11 by omega), if_pos hx911]
        norm_num
      · rw [if_neg (show ¬(9 ≤ p.1.toNat ∧ p.1.toNat ≤ 11) by omega), if_neg hx911]
        norm_num

lemma grayBuf_black_disk (cx cy r : ℚ) (hr : r = 6 / 5)
    (hcase : cy = 34 / 25 ∨ cy = 4 ∨ (cy = 166 / 25 ∧ (cx = 6 ∨ cx = 14))) :
    sampleCircle grayBuf cx cy r = 0 := by
  subst hr
  apply sampleCircle_zero_of_black
  intro p hp
  obtain ⟨hb1, hb2, hb3, hb4⟩ := diskPixels_mem_bounds grayBuf cx cy (6 / 5) p hp
  have hw : grayBuf.width = 16 := rfl
  have hh : grayBuf.height = 8 := rfl
  rw [hw] at hb2
  rw [hh] at hb4
  have hcond := ((mem_diskPixels_iff grayBuf cx cy (6 / 5) p).mp hp).2.2
  rw [grayBuf_lumAt p hb1 (by omega) hb3 (by omega)]
  rcases hcase with rfl | rfl | ⟨rfl, hcx⟩
  · have hy : (p.2 : ℚ) < 6 := by nlinarith [sq_nonneg ((p.1 : ℚ) - cx)]
    rw [if_pos (show p.2 < 6 by exact_mod_cast hy)]
  · have hy : (p.2 : ℚ) < 6 := by nlinarith [sq_nonneg ((p.1 : ℚ) - cx)]
    rw [if_pos (show p.2 < 6 by exact_mod_cast hy)]
  · have hy : (5 : ℚ) < (p.2 : ℚ) := by nlinarith [sq_nonneg ((p.1 : ℚ) - cx)]
    have hy2 : ¬(p.2 < 6) := by
      have : (5 : ℤ) < p.2 := by exact_mod_cast hy
      omega
    rw [if_neg hy2]
    rcases hcx with rfl | rfl
    · have hx1 : (4 : ℚ) < (p.1 : ℚ) := by nlinarith [sq_nonneg ((p.2 : ℚ) - 166 / 25)]
      have hx2 : (p.1 : ℚ) < 8 := by nlinarith [sq_nonneg ((p.2 : ℚ) - 166 / 25)]
      have hxi1 : (4 : ℤ) < p.1 := by exact_mod_cast hx1
      have hxi2 : p.1 < 8 := by exact_mod_cast hx2
      rw [if_neg (by omega), if_neg (by omega)]
    · have hx1 : (12 : ℚ) < (p.1 : ℚ) := by nlinarith [sq_nonneg ((p.2 : ℚ) - 166 / 25)]
      have hxi1 : (12 : ℤ) < p.1 := by exact_mod_cast hx1
      rw [if_neg (by omega), if_neg (by omega)]

lemma grayBuf_gray_disk_left (cx cy r : ℚ) (hcx : cx = 2) (hcy : cy = 166 / 25)
    (hr : r = 6 / 5) : sampleCircle grayBuf cx cy r = 24 / 255 := by
  subst hcx hcy hr
  apply sampleCircle_const grayBuf _ _ _ 24
  · apply List.ne_nil_of_mem (a := ((2 : ℤ), (7 : ℤ)))
    have hw : grayBuf.width = 16 := rfl
    have hh : grayBuf.height = 8 := rfl
    apply mem_diskPixels_of_cond grayBuf _ _ _ (by norm_num)
    · norm_num
    · rw [hw]
      norm_num
    · norm_num
    · rw [hh]
      norm_num
    · norm_num
  · intro p hp
    obtain ⟨hb1, hb2, hb3, hb4⟩ := diskPixels_mem_bounds grayBuf _ _ _ p hp
    have hw : grayBuf.width = 16 := rfl
    have hh : grayBuf.height = 8 := rfl
    rw [hw] at hb2
    rw [hh] at hb4
    have hcond := ((mem_diskPixels_iff grayBuf _ _ _ p).mp hp).2.2
    rw [grayBuf_lumAt p hb1 (by omega) hb3 (by omega)]
    have hy : (5 : ℚ) < (p.2 : ℚ) := by nlinarith [sq_nonneg ((p.1 : ℚ) - 2)]
    have hy2 : ¬(p.2 < 6) := by
      have : (5 : ℤ) < p.2 := by exact_mod_cast hy
      omega
    have hx1 : (p.1 : ℚ) < 4 := by nlinarith [sq_nonneg ((p.2 : ℚ) - 166 / 25)]
    have hxi : p.1 < 4 := by exact_mod_cast hx1
    rw [if_neg hy2, if_pos (by omega)]

lemma grayBuf_gray_disk_right (cx cy r : ℚ) (hcx : cx = 10) (hcy : cy = 166 / 25)
    (hr : r = 6 / 5) : sampleCircle grayBuf cx cy r = 31 / 255 := by
  subst hcx hcy hr
  apply sampleCircle_const grayBuf _ _ _ 31
  · apply List.ne_nil_of_mem (a := ((10 : ℤ), (7 : ℤ)))
    have hw : grayBuf.width = 16 := rfl
    have hh : grayBuf.height = 8 := rfl
    apply mem_diskPixels_of_cond grayBuf _ _ _ (by norm_num)
    · norm_num
    · rw [hw]
      norm_num
    · norm_num
    · rw [hh]
      norm_num
    · norm_num
  · intro p hp
    obtain ⟨hb1, hb2, hb3, hb4⟩ := diskPixels_mem_bounds grayBuf _ _ _ p hp
    have hw : grayBuf.width = 16 := rfl
    have hh : grayBuf.height = 8 := rfl
    rw [hw] at hb2
    rw [hh] at hb4
    have hcond := ((mem_diskPixels_iff grayBuf _ _ _ p).mp hp).2.2
    rw [grayBuf_lumAt p hb1 (by omega) hb3 (by omega)]
    have hy : (5 : ℚ) < (p.2 : ℚ) := by nlinarith [sq_nonneg ((p.1 : ℚ) - 10)]
    have hy2 : ¬(p.2 < 6) := by
      have : (5 : ℤ) < p.2 := by exact_mod_cast hy
      omega
    have hx1 : (8 : ℚ) < (p.1 : ℚ) := by nlinarith [sq_nonneg ((p.2 : ℚ) - 166 / 25)]
    have hx2 : (p.1 : ℚ) < 12 := by nlinarith [sq_nonneg ((p.2 : ℚ) - 166 / 25)]
    have hxi1 : (8 : ℤ) < p.1 := by exact_mod_cast hx1
    have hxi2 : p.1 < 12 := by exact_mod_cast hx2
    rw [if_neg hy2, if_neg (by omega), if_pos (by omega)]

lemma sampleCell_grayBuf_left (cellX cellY cw ch_ : ℚ)
    (hx : cellX = 0) (hy : cellY = 0) (hcw : cw = 8) (hch : ch_ = 8) :
    sampleCell grayBuf cellX cellY cw ch_ = [0, 0, 0, 0, 24 / 255, 0] := by
  subst hx hy hcw hch
  simp only [sampleCell, samplePositions, List.map_cons, List.map_nil]
  rw [grayBuf_black_disk _ _ _ (by norm_num) (by norm_num),
    grayBuf_black_disk _ _ _ (by norm_num) (by norm_num),
    grayBuf_black_disk _ _ _ (by norm_num) (by norm_num),
    grayBuf_black_disk _ _ _ (by norm_num) (by norm_num),
    grayBuf_gray_disk_left _ _ _ (by norm_num) (by norm_num) (by norm_num),
    grayBuf_black_disk _ _ _ (by norm_num) (by norm_num)]

lemma sampleCell_grayBuf_right (cellX cellY cw ch_ : ℚ)
    (hx : cellX = 8) (hy : cellY = 0) (hcw : cw = 8) (hch : ch_ = 8) :
    sampleCell grayBuf cellX cellY cw ch_ = [0, 0, 0, 0, 31 / 255, 0] := by
  subst hx hy hcw hch
  simp only [sampleCell, samplePositions, List.map_cons, List.map_nil]
  rw [grayBuf_black_disk _ _ _ (by norm_num) (by norm_num),
    grayBuf_black_disk _ _ _ (by norm_num) (by norm_num),
    grayBuf_black_disk _ _ _ (by norm_num) (by norm_num),
    grayBuf_black_disk _ _ _ (by norm_num) (by norm_num),
    grayBuf_gray_disk_right _ _ _ (by norm_num) (by norm_num) (by norm_num),
    grayBuf_black_disk _ _ _ (by norm_num) (by norm_num)]

lemma cellVector_grayBuf0 :
    cellVector grayBuf ⟨2, 1, (1 : ℝ), false⟩ 0 0 = castVec [0, 0, 0, 0, 24 / 255, 0] := by
  simp only [cellVector]
  rw [sampleCell_grayBuf_left _ _ _ _ ?h1 ?h2 ?h3 ?h4]
  case h1 => norm_num
  case h2 => norm_num
  case h3 =>
    rw [show grayBuf.width = 16 from rfl]
    norm_num
  case h4 =>
    rw [show grayBuf.height = 8 from rfl]
    norm_num
  show enhanceContrast (castVec [0, 0, 0, 0, 24 / 255, 0]) 1 = castVec [0, 0, 0, 0, 24 / 255, 0]
  exact enhanceContrast_one _

lemma cellVector_grayBuf1 :
    cellVector grayBuf ⟨2, 1, (1 : ℝ), false⟩ 0 1 = castVec [0, 0, 0, 0, 31 / 255, 0] := by
  simp only [cellVector]
  rw [sampleCell_grayBuf_right _ _ _ _ ?h1 ?h2 ?h3 ?h4]
  case h1 =>
    rw [show grayBuf.width = 16 from rfl]
    norm_num
  case h2 => norm_num
  case h3 =>
    rw [show grayBuf.width = 16 from rfl]
    norm_num
  case h4 =>
    rw [show grayBuf.height = 8 from rfl]
    norm_num
  show enhanceContrast (castVec [0, 0, 0, 0, 31 / 255, 0]) 1 = castVec [0, 0, 0, 0, 31 / 255, 0]
  exact enhanceContrast_one _

-- ============================================================================
-- Quantized keys and full scans of the concrete cell vectors
-- ============================================================================

lemma generateCacheKeyQ_gray24 : generateCacheKeyQ [0, 0, 0, 0, 24 / 255, 0] = 96 := by
  simp only [generateCacheKeyQ, List.foldl_cons, List.foldl_nil]
  rw [show ⌊(0 : ℚ) * 32⌋ = 0 from by norm_num,
    show ⌊(24 / 255 : ℚ) * 32⌋ = 3 from by norm_num [Int.floor_eq_iff]]
  norm_num

lemma generateCacheKeyQ_gray31 : generateCacheKeyQ [0, 0, 0, 0, 31 / 255, 0] = 96 := by
  simp only [generateCacheKeyQ, List.foldl_cons, List.foldl_nil]
  rw [show ⌊(0 : ℚ) * 32⌋ = 0 from by norm_num,
    show ⌊(31 / 255 : ℚ) * 32⌋ = 3 from by norm_num [Int.floor_eq_iff]]
  norm_num

lemma generateCacheKeyQ_ones : generateCacheKeyQ [1, 1, 1, 1, 1, 1] = 1073741823 := by
  simp only [generateCacheKeyQ, List.foldl_cons, List.foldl_nil]
  rw [show ⌊(1 : ℚ) * 32⌋ = 32 from by norm_num [Int.floor_eq_iff]]
  norm_num

set_option maxHeartbeats 4000000 in
lemma scanBestQ_gray24 : scanBestQ [0, 0, 0, 0, 24 / 255, 0] = ' ' := by
  norm_num [scanBestQ, scanStepQ, sqDistQ, CHARACTER_SHAPES]

set_option maxHeartbeats 4000000 in
lemma scanBestQ_gray31 : scanBestQ [0, 0, 0, 0, 31 / 255, 0] = '.' := by
  norm_num [scanBestQ, scanStepQ, sqDistQ, CHARACTER_SHAPES]

set_option maxHeartbeats 4000000 in
lemma scanBestQ_ones : scanBestQ [1, 1, 1, 1, 1, 1] = '@' := by
  norm_num [scanBestQ, scanStepQ, sqDistQ, CHARACTER_SHAPES]

lemma findBest_gray0 :
    findBestCharacter [] (castVec [0, 0, 0, 0, 24 / 255, 0]) = (' ', [(96, ' ')]) := by
  simp only [findBestCharacter, generateCacheKey_cast, generateCacheKeyQ_gray24,
    scanBest_cast, scanBestQ_gray24, cacheFind]

lemma findBest_gray1 :
    findBestCharacter [(96, ' ')] (castVec [0, 0, 0, 0, 31 / 255, 0]) = (' ', [(96, ' ')]) := by
  simp only [findBestCharacter, generateCacheKey_cast, generateCacheKeyQ_gray31, cacheFind]
  norm_num

lemma findBest_ones :
    findBestCharacter [] [(1 : ℝ), 1, 1, 1, 1, 1] = ('@', [(1073741823, '@')]) := by
  rw [← castVec_ones]
  simp only [findBestCharacter, generateCacheKey_cast, generateCacheKeyQ_ones,
    scanBest_cast, scanBestQ_ones, cacheFind]

-- ============================================================================
-- Closed-form renders of tiny grids
-- ============================================================================

lemma renderToAscii_one_cell (img : ImageData) (e : ℝ) (inv : Bool) (c : MatchCache) :
    (renderToAscii img ⟨1, 1, e, inv⟩ c).1 =
      String.mk [(findBestCharacter c (cellVector img ⟨1, 1, e, inv⟩ 0 0)).1] := rfl

lemma renderToAscii_two_cells (img : ImageData) (e : ℝ) (inv : Bool) (c : MatchCache) :
    (renderToAscii img ⟨2, 1, e, inv⟩ c).1 =
      String.mk [(findBestCharacter c (cellVector img ⟨2, 1, e, inv⟩ 0 0)).1,
        (findBestCharacter (findBestCharacter c (cellVector img ⟨2, 1, e, inv⟩ 0 0)).2
          (cellVector img ⟨2, 1, e, inv⟩ 0 1)).1] := rfl

lemma renderNoCache_two_cells (img : ImageData) (e : ℝ) (inv : Bool) :
    renderNoCache img ⟨2, 1, e, inv⟩ =
      String.mk [scanBest (cellVector img ⟨2, 1, e, inv⟩ 0 0),
        scanBest (cellVector img ⟨2, 1, e, inv⟩ 0 1)] := rfl

lemma sampleCell_white2x2_eval : sampleCell white2x2 0 0 2 2 = [0, 0, 0, 0, 0, 0] := by
  apply sampleCell_all_empty
  intro pos hpos
  apply disk_empty_half white2x2
  · fin_cases hpos <;> norm_num
  · norm_num

lemma render_cache_eq_noCache (img : ImageData) (o : RenderOptions)
    (hcoll : NoKeyCollision img o) :
    (renderToAscii img o []).1 = renderNoCache img o := by
  obtain ⟨h1, _⟩ := renderRows_spec img o hcoll (List.range o.rows)
    (fun x hx => List.mem_range.mp hx) [] [] (cacheGood_nil img o)
  have hfst : (renderToAscii img o []).1 = String.intercalate "\n"
      ((List.range o.rows).foldl (fun acc row =>
        let lr := renderLine img o row ("", acc.2)
        (acc.1 ++ [lr.1], lr.2)) (([] : List String), ([] : MatchCache))).1 := rfl
  rw [hfst, h1]
  unfold renderNoCache
  rw [List.nil_append]

lemma le_maxComp (v : List ℝ) (x : ℝ) (hx : x ∈ v) : x ≤ maxComp v := by
  unfold maxComp
  induction v with
  | nil => simp at hx
  | cons a as ih =>
      rcases List.mem_cons.mp hx with rfl | hx'
      · exact le_max_left _ _
      · exact le_trans (ih hx') (le_max_right _ _)

-- ============================================================================
-- Claims
-- ============================================================================

/-- C1 (counterexample): the claim fails as stated.  On the concrete 16×8
buffer `grayBuf` rendered as a 2×1 grid with contrast exponent 1 and no
invert, the cache-enabled renderer and the cache-disabled (full linear scan)
renderer produce different outputs: the two cells' vectors share quantized
key 96, so the second cell reuses the first cell's cached `' '` although its
own full scan yields `'.'`. -/
theorem claim_C1_counterexample :
    (renderToAscii grayBuf ⟨2, 1, 1, false⟩ []).1 ≠
      renderNoCache grayBuf ⟨2, 1, 1, false⟩ := by
  rw [renderToAscii_two_cells, renderNoCache_two_cells]
  simp only [cellVector_grayBuf0, cellVector_grayBuf1, findBest_gray0, findBest_gray1,
    scanBest_cast, scanBestQ_gray24, scanBestQ_gray31]
  decide

/-- C1 (amended): the cache-enabled render (starting from the empty cache)
is byte-identical to the cache-disabled full-scan render, provided no two
cell vectors of the render share a quantized cache key while resolving to
different characters under the full scan. -/
theorem claim_C1_cache_refinement (img : ImageData) (o : RenderOptions)
    (hcoll : NoKeyCollision img o) :
    (renderToAscii img o []).1 = renderNoCache img o :=
  render_cache_eq_noCache img o hcoll

/-- C1 (witness): the amended theorem applied to a concrete render (the
single-cell render of the white 2×2 buffer, where the collision-freedom
hypothesis holds trivially). -/
theorem claim_C1_witness :
    (renderToAscii white2x2 ⟨1, 1, 1, false⟩ []).1 =
      renderNoCache white2x2 ⟨1, 1, 1, false⟩ := by
  apply claim_C1_cache_refinement
  intro v₁ hv₁ v₂ hv₂ _
  have hr : List.range 1 = [0] := rfl
  simp only [cellVectors, hr, List.flatMap_cons, List.flatMap_nil,
    List.map_cons, List.map_nil, List.append_nil, List.mem_singleton] at hv₁ hv₂
  rw [hv₁, hv₂]

/-- C2 (counterexample): the claim fails as stated.  For the all-white 2×2
buffer rendered as a 1×1 grid with contrast 1.5, the sampled vector is not
`[1,1,1,1,1,1]` (each sampling disk of radius 0.3 contains no pixel centre)
and the output is not `"@"`. -/
theorem claim_C2_counterexample :
    sampleCell white2x2 0 0 2 2 ≠ [1, 1, 1, 1, 1, 1] ∧
    (renderToAscii white2x2 ⟨1, 1, 3 / 2, false⟩ []).1 ≠ "@" := by
  constructor
  · rw [sampleCell_white2x2_eval]
    intro h
    simp at h
  · rw [renderToAscii_one_cell]
    rw [cellVector_2x2_blank white2x2 (3 / 2) false rfl rfl]
    simp only [Bool.false_eq_true, if_false, findBestCharacter_zeros_empty]
    decide

/-- C2 (amended): for the all-white 2×2 buffer rendered with columns = 1,
rows = 1, contrast exponent 1.5 and invert = false, every sampling disk
(radius 0.3) contains no pixel centre, so the cell's sampled vector before
enhancement is `[0,0,0,0,0,0]` and the output is a single space character. -/
theorem claim_C2_scenario :
    sampleCell white2x2 0 0 2 2 = [0, 0, 0, 0, 0, 0] ∧
    (renderToAscii white2x2 ⟨1, 1, 3 / 2, false⟩ []).1 = " " := by
  refine ⟨sampleCell_white2x2_eval, ?_⟩
  rw [renderToAscii_one_cell]
  rw [cellVector_2x2_blank white2x2 (3 / 2) false rfl rfl]
  simp only [Bool.false_eq_true, if_false, findBestCharacter_zeros_empty]

/-- C3 (counterexample): the claim fails as stated.  For the all-white 2×2
buffer (whose sampling disks are all empty), rendering the per-pixel
complement with invert = false gives a single space, while rendering the
original with invert = true gives `"@"`: empty disks sample 0 in both
buffers, but invert turns 0 into 1. -/
theorem claim_C3_counterexample :
    (renderToAscii (complementImage white2x2) ⟨1, 1, 3 / 2, false⟩ []).1 ≠
      (renderToAscii white2x2 ⟨1, 1, 3 / 2, true⟩ []).1 := by
  rw [renderToAscii_one_cell, renderToAscii_one_cell]
  rw [cellVector_2x2_blank (complementImage white2x2) (3 / 2) false rfl rfl]
  rw [cellVector_2x2_blank white2x2 (3 / 2) true rfl rfl]
  simp only [Bool.false_eq_true, if_false, if_true, findBestCharacter_zeros_empty,
    findBest_ones]
  decide

/-- C3 (amended): for every well-formed pixel buffer (row-major RGBA bytes of
length width·height·4, bytes at most 255) and options with invert = false,
if every sampling disk of the render grid contains at least one pixel, then
rendering the per-pixel complement with invert = false yields exactly the
output of rendering the original buffer with invert = true. -/
theorem claim_C3_invert_symmetry (img : ImageData) (o : RenderOptions)
    (hinv : o.invert = false)
    (hlen : (img.data.length : ℤ) = img.width * img.height * 4)
    (hbytes : ∀ b ∈ img.data, b ≤ 255) (hall : AllDisksNonempty img o) :
    (renderToAscii (complementImage img) o []).1 =
      (renderToAscii img { o with invert := true } []).1 := by
  rw [render_complement_invert img o hinv hlen hbytes hall]

lemma mkBuf_bytes_le (w h : ℕ) (f : ℕ → ℕ → ℕ) (hf : ∀ x y, f x y ≤ 255) :
    ∀ b ∈ (mkBuf w h f).data, b ≤ 255 := by
  intro b hb
  unfold mkBuf at hb
  simp only [List.mem_ofFn] at hb
  obtain ⟨i, rfl⟩ := hb
  dsimp only
  split
  · exact hf _ _
  · omega

lemma mkBuf_data_length (w h : ℕ) (f : ℕ → ℕ → ℕ) :
    (mkBuf w h f).data.length = w * h * 4 := by
  simp only [mkBuf]
  exact List.length_ofFn _

/-- All-black 8×8 buffer used as the witness instance for C3. -/
def blackBuf8 : ImageData := mkBuf 8 8 (fun _ _ => 0)

/-- C3 (witness): the amended invert-symmetry theorem applied to a concrete
well-formed buffer (an 8×8 all-black buffer, rendered as a 1×1 grid, where
every sampling disk contains pixels). -/
theorem claim_C3_witness :
    (renderToAscii (complementImage blackBuf8) ⟨1, 1, 3 / 2, false⟩ []).1 =
      (renderToAscii blackBuf8
        { (⟨1, 1, 3 / 2, false⟩ : RenderOptions) with invert := true } []).1 := by
  apply claim_C3_invert_symmetry
  · rfl
  · have h1 : blackBuf8.data.length = 8 * 8 * 4 := mkBuf_data_length 8 8 _
    rw [h1, show blackBuf8.width = 8 from rfl, show blackBuf8.height = 8 from rfl]
    norm_num
  · exact mkBuf_bytes_le 8 8 _ (fun x y => by omega)
  · intro row hrow col hcol pos hpos
    have hrow1 : row < 1 := hrow
    have hcol1 : col < 1 := hcol
    have hrow0 : row = 0 := by omega
    have hcol0 : col = 0 := by omega
    subst hrow0 hcol0
    have hw : blackBuf8.width = 8 := rfl
    have hh : blackBuf8.height = 8 := rfl
    rw [hw, hh]
    fin_cases hpos
    · apply List.ne_nil_of_mem (a := ((2 : ℤ), (1 : ℤ)))
      apply mem_diskPixels_of_cond blackBuf8 _ _ _ (by positivity)
      · norm_num
      · rw [hw]
        norm_num
      · norm_num
      · rw [hh]
        norm_num
      · norm_num
    · apply List.ne_nil_of_mem (a := ((6 : ℤ), (1 : ℤ)))
      apply mem_diskPixels_of_cond blackBuf8 _ _ _ (by positivity)
      · norm_num
      · rw [hw]
        norm_num
      · norm_num
      · rw [hh]
        norm_num
      · norm_num
    · apply List.ne_nil_of_mem (a := ((2 : ℤ), (4 : ℤ)))
      apply mem_diskPixels_of_cond blackBuf8 _ _ _ (by positivity)
      · norm_num
      · rw [hw]
        norm_num
      · norm_num
      · rw [hh]
        norm_num
      · norm_num
    · apply List.ne_nil_of_mem (a := ((6 : ℤ), (4 : ℤ)))
      apply mem_diskPixels_of_cond blackBuf8 _ _ _ (by positivity)
      · norm_num
      · rw [hw]
        norm_num
      · norm_num
      · rw [hh]
        norm_num
      · norm_num
    · apply List.ne_nil_of_mem (a := ((2 : ℤ), (7 : ℤ)))
      apply mem_diskPixels_of_cond blackBuf8 _ _ _ (by positivity)
      · norm_num
      · rw [hw]
        norm_num
      · norm_num
      · rw [hh]
        norm_num
      · norm_num
    · apply List.ne_nil_of_mem (a := ((6 : ℤ), (7 : ℤ)))
      apply mem_diskPixels_of_cond blackBuf8 _ _ _ (by positivity)
      · norm_num
      · rw [hw]
        norm_num
      · norm_num
      · rw [hh]
        norm_num
      · norm_num

/-- C4: a blank cell (the all-zero sampling vector) is always rendered as a
space.  Whatever cache has been built up by earlier `findBestCharacter` calls
on well-formed sampling vectors, looking up the all-zero vector yields the
space character, either by a fresh catalog scan or from a cache entry. -/
theorem claim_C4_blank_cell (vs : List (List ℝ))
    (hvs : ∀ v ∈ vs, SamplingVectorWF v) :
    (findBestCharacter (applyCalls vs) [0, 0, 0, 0, 0, 0]).1 = ' ' := by
  simp only [findBestCharacter, generateCacheKey_zeros]
  rcases hfind : cacheFind (applyCalls vs) 0 with _ | ch
  · simp only [hfind, scanBest_zeros]
  · simp only [hfind]
    exact callsFold_find_zero vs
      (fun v hv x hx => ((hvs v hv).2 x hx).1) []
      (fun ch' h => by simp [cacheFind] at h) ch hfind

/-- C4 (witness): the blank-cell law applied with an empty call history. -/
theorem claim_C4_witness :
    (∀ v ∈ ([] : List (List ℝ)), SamplingVectorWF v) ∧
    (findBestCharacter (applyCalls []) [0, 0, 0, 0, 0, 0]).1 = ' ' :=
  ⟨fun v hv => absurd hv (List.not_mem_nil v),
   claim_C4_blank_cell [] (fun v hv => absurd hv (List.not_mem_nil v))⟩

/-- C5: the contrast enhancer.  The peak `maxComp v` dominates every component;
a vector with zero peak is returned unchanged; otherwise every component is
normalized by the peak, raised to the exponent and rescaled, which fixes both
the peak components and the zero components. -/
theorem claim_C5_contrast (v : List ℝ) (e : ℝ) (he : 0 < e)
    (hv : ∀ x ∈ v, 0 ≤ x ∧ x ≤ 1) :
    (∀ x ∈ v, x ≤ maxComp v) ∧
    (maxComp v = 0 → enhanceContrast v e = v) ∧
    (maxComp v ≠ 0 →
      enhanceContrast v e = v.map (fun x => (x / maxComp v) ^ e * maxComp v) ∧
      (∀ i, ∀ hi : i < v.length, v.getD i 0 = maxComp v →
        (enhanceContrast v e).getD i 0 = maxComp v) ∧
      (∀ i, ∀ hi : i < v.length, v.getD i 0 = 0 →
        (enhanceContrast v e).getD i 0 = 0)) := by
  refine ⟨fun x hx => le_maxComp v x hx,
    fun h => enhanceContrast_of_max_zero v e h, fun hm => ?_⟩
  have heq : enhanceContrast v e = v.map (fun x => (x / maxComp v) ^ e * maxComp v) := by
    simp only [enhanceContrast]
    rw [if_neg hm]
  refine ⟨heq, ?_, ?_⟩
  · intro i hi hpeak
    rw [List.getD_eq_getElem _ _ hi] at hpeak
    rw [heq, List.getD_eq_getElem _ _ (by simpa using hi), List.getElem_map]
    rw [hpeak, div_self hm, Real.one_rpow, one_mul]
  · intro i hi hzero
    rw [List.getD_eq_getElem _ _ hi] at hzero
    rw [heq, List.getD_eq_getElem _ _ (by simpa using hi), List.getElem_map]
    rw [hzero, zero_div, Real.zero_rpow (ne_of_gt he), zero_mul]

/-- C5 (witness): the contrast theorem applied at the all-zero vector with
exponent `2`. -/
theorem claim_C5_witness :
    (0 : ℝ) < 2 ∧ (∀ x ∈ [(0 : ℝ), 0, 0, 0, 0, 0], 0 ≤ x ∧ x ≤ 1) ∧
    ((∀ x ∈ [(0 : ℝ), 0, 0, 0, 0, 0], x ≤ maxComp [(0 : ℝ), 0, 0, 0, 0, 0]) ∧
      (maxComp [(0 : ℝ), 0, 0, 0, 0, 0] = 0 →
        enhanceContrast [(0 : ℝ), 0, 0, 0, 0, 0] 2 = [(0 : ℝ), 0, 0, 0, 0, 0]) ∧
      (maxComp [(0 : ℝ), 0, 0, 0, 0, 0] ≠ 0 →
        enhanceContrast [(0 : ℝ), 0, 0, 0, 0, 0] 2 =
          ([(0 : ℝ), 0, 0, 0, 0, 0]).map
            (fun x => (x / maxComp [(0 : ℝ), 0, 0, 0, 0, 0]) ^ (2 : ℝ) *
              maxComp [(0 : ℝ), 0, 0, 0, 0, 0]) ∧
        (∀ i, ∀ hi : i < ([(0 : ℝ), 0, 0, 0, 0, 0]).length,
          ([(0 : ℝ), 0, 0, 0, 0, 0]).getD i 0 = maxComp [(0 : ℝ), 0, 0, 0, 0, 0] →
          (enhanceContrast [(0 : ℝ), 0, 0, 0, 0, 0] 2).getD i 0 =
            maxComp [(0 : ℝ), 0, 0, 0, 0, 0]) ∧
        (∀ i, ∀ hi : i < ([(0 : ℝ), 0, 0, 0, 0, 0]).length,
          ([(0 : ℝ), 0, 0, 0, 0, 0]).getD i 0 = 0 →
          (enhanceContrast [(0 : ℝ), 0, 0, 0, 0, 0] 2).getD i 0 = 0))) :=
  ⟨by norm_num, by norm_num,
   claim_C5_contrast [(0 : ℝ), 0, 0, 0, 0, 0] 2 (by norm_num) (by norm_num)⟩

/-- C6: the catalog scan is a first-minimum argmin.  For any sampling vector
there is a catalog index whose character the scan returns, whose distance is
minimal over the whole catalog, and which is strictly better than every
earlier catalog entry (ties are broken in favour of the earlier entry). -/
theorem claim_C6_argmin (v : List ℝ) (hlen : v.length = 6) :
    ∃ i : Fin CHARACTER_SHAPES.length,
      scanBest v = (CHARACTER_SHAPES.get i).character ∧
      (∀ j : Fin CHARACTER_SHAPES.length,
        euclideanDistance v (castVec (CHARACTER_SHAPES.get i).shapeVector) ≤
          euclideanDistance v (castVec (CHARACTER_SHAPES.get j).shapeVector)) ∧
      (∀ j : Fin CHARACTER_SHAPES.length, (j : ℕ) < (i : ℕ) →
        euclideanDistance v (castVec (CHARACTER_SHAPES.get i).shapeVector) <
          euclideanDistance v (castVec (CHARACTER_SHAPES.get j).shapeVector)) := by
  obtain ⟨i, h1, h2, h3⟩ := scanBest_argmin v
  exact ⟨i, h1, fun j => h2 j, fun j hj => h3 j hj⟩

/-- C6 (witness): the argmin characterization applied at the all-zero
sampling vector. -/
theorem claim_C6_witness :
    ([(0 : ℝ), 0, 0, 0, 0, 0]).length = 6 ∧
    ∃ i : Fin CHARACTER_SHAPES.length,
      scanBest [(0 : ℝ), 0, 0, 0, 0, 0] = (CHARACTER_SHAPES.get i).character ∧
      (∀ j : Fin CHARACTER_SHAPES.length,
        euclideanDistance [(0 : ℝ), 0, 0, 0, 0, 0]
            (castVec (CHARACTER_SHAPES.get i).shapeVector) ≤
          euclideanDistance [(0 : ℝ), 0, 0, 0, 0, 0]
            (castVec (CHARACTER_SHAPES.get j).shapeVector)) ∧
      (∀ j : Fin CHARACTER_SHAPES.length, (j : ℕ) < (i : ℕ) →
        euclideanDistance [(0 : ℝ), 0, 0, 0, 0, 0]
            (castVec (CHARACTER_SHAPES.get i).shapeVector) <
          euclideanDistance [(0 : ℝ), 0, 0, 0, 0, 0]
            (castVec (CHARACTER_SHAPES.get j).shapeVector)) :=
  ⟨rfl, claim_C6_argmin [(0 : ℝ), 0, 0, 0, 0, 0] rfl⟩

/-- C7: grid shape of the output.  The rendered string is the newline-join of
a list of exactly `rows` lines, each of length exactly `cols`. -/
theorem claim_C7_grid_shape (img : ImageData) (o : RenderOptions) (c : MatchCache)
    (hrows : 0 < o.rows) (hcols : 0 < o.cols) :
    ∃ lines : List String,
      (renderToAscii img o c).1 = String.intercalate "\n" lines ∧
      lines.length = o.rows ∧ ∀ l ∈ lines, l.length = o.cols := by
  obtain ⟨h1, h2⟩ := renderRows_shape img o (List.range o.rows) [] c
  refine ⟨((List.range o.rows).foldl (fun acc row =>
      let lr := renderLine img o row ("", acc.2)
      (acc.1 ++ [lr.1], lr.2)) (([] : List String), c)).1, rfl, ?_, ?_⟩
  · simpa using h1
  · intro l hl
    rcases h2 l hl with hmem | hlen2
    · exact absurd hmem (List.not_mem_nil l)
    · exact hlen2

/-- C7 (witness): the grid-shape theorem applied to a white 2×2 buffer rendered
as a 1×1 grid with an empty cache. -/
theorem claim_C7_witness :
    0 < (⟨1, 1, 1, false⟩ : RenderOptions).rows ∧
    0 < (⟨1, 1, 1, false⟩ : RenderOptions).cols ∧
    ∃ lines : List String,
      (renderToAscii white2x2 ⟨1, 1, 1, false⟩ []).1 = String.intercalate "\n" lines ∧
      lines.length = (⟨1, 1, 1, false⟩ : RenderOptions).rows ∧
      ∀ l ∈ lines, l.length = (⟨1, 1, 1, false⟩ : RenderOptions).cols :=
  ⟨by norm_num, by norm_num,
   claim_C7_grid_shape white2x2 ⟨1, 1, 1, false⟩ [] (by norm_num) (by norm_num)⟩

/-- C8: a degenerate buffer (zero width or zero height) samples every cell to
the all-zero vector, and a non-inverted render of it is a blank grid: `rows`
lines of `cols` spaces joined by newlines. -/
theorem claim_C8_degenerate (img : ImageData) (o : RenderOptions)
    (himg : img.width = 0 ∨ img.height = 0) (hinv : o.invert = false)
    (hrows : 0 < o.rows) (hcols : 0 < o.cols) :
    (∀ cellX cellY cellWidth cellHeight : ℚ,
      sampleCell img cellX cellY cellWidth cellHeight = [0, 0, 0, 0, 0, 0]) ∧
    (renderToAscii img o []).1 =
      String.intercalate "\n"
        (List.replicate o.rows (String.mk (List.replicate o.cols ' '))) :=
  ⟨fun cx cy cw ch2 => sampleCell_degenerate img himg cx cy cw ch2,
   renderToAscii_degenerate_blank img o himg hinv hcols hrows⟩

/-- C8 (witness): the degenerate-buffer theorem applied to a width-zero image
rendered as a 3×2 grid. -/
theorem claim_C8_witness :
    ((⟨0, 5, []⟩ : ImageData).width = 0 ∨ (⟨0, 5, []⟩ : ImageData).height = 0) ∧
    (⟨2, 3, 3 / 2, false⟩ : RenderOptions).invert = false ∧
    ((∀ cellX cellY cellWidth cellHeight : ℚ,
        sampleCell ⟨0, 5, []⟩ cellX cellY cellWidth cellHeight = [0, 0, 0, 0, 0, 0]) ∧
      (renderToAscii ⟨0, 5, []⟩ ⟨2, 3, 3 / 2, false⟩ []).1 =
        String.intercalate "\n"
          (List.replicate 3 (String.mk (List.replicate 2 ' ')))) :=
  ⟨Or.inl rfl, rfl,
   claim_C8_degenerate ⟨0, 5, []⟩ ⟨2, 3, 3 / 2, false⟩ (Or.inl rfl) rfl
     (by norm_num) (by norm_num)⟩

/-- C9: sampler invariants.  Every `sampleCell` result has exactly six
components, each in `[0, 1]` when the buffer bytes are at most 255; a circle
with an empty pixel disk samples to `0`, and otherwise to the mean disk
luminance divided by 255. -/
theorem claim_C9_sampler (img : ImageData) (hbytes : ∀ b ∈ img.data, b ≤ 255)
    (cellX cellY cellWidth cellHeight cx cy radius : ℚ) :
    (sampleCell img cellX cellY cellWidth cellHeight).length = 6 ∧
    (∀ x ∈ sampleCell img cellX cellY cellWidth cellHeight, 0 ≤ x ∧ x ≤ 1) ∧
    (diskPixels img cx cy radius = [] → sampleCircle img cx cy radius = 0) ∧
    (diskPixels img cx cy radius ≠ [] →
      sampleCircle img cx cy radius =
        ((diskPixels img cx cy radius).map (lumAt img)).sum /
          ((diskPixels img cx cy radius).length : ℚ) / 255) := by
  refine ⟨sampleCell_length img _ _ _ _, sampleCell_bounds img hbytes _ _ _ _,
    fun h => sampleCircle_of_empty img cx cy radius h, fun hne => ?_⟩
  simp only [sampleCircle]
  rw [if_neg (fun h0 => hne (List.length_eq_zero.mp h0))]

/-- C9 (witness): the sampler invariants applied to the empty image with all
coordinates zero. -/
theorem claim_C9_witness :
    (∀ b ∈ (⟨0, 0, []⟩ : ImageData).data, b ≤ 255) ∧
    ((sampleCell ⟨0, 0, []⟩ 0 0 0 0).length = 6 ∧
      (∀ x ∈ sampleCell ⟨0, 0, []⟩ 0 0 0 0, 0 ≤ x ∧ x ≤ 1) ∧
      (diskPixels ⟨0, 0, []⟩ 0 0 0 = [] → sampleCircle ⟨0, 0, []⟩ 0 0 0 = 0) ∧
      (diskPixels ⟨0, 0, []⟩ 0 0 0 ≠ [] →
        sampleCircle ⟨0, 0, []⟩ 0 0 0 =
          ((diskPixels ⟨0, 0, []⟩ 0 0 0).map (lumAt ⟨0, 0, []⟩)).sum /
            ((diskPixels ⟨0, 0, []⟩ 0 0 0).length : ℚ) / 255)) :=
  ⟨fun b hb => absurd hb (List.not_mem_nil b),
   claim_C9_sampler ⟨0, 0, []⟩ (fun b hb => absurd hb (List.not_mem_nil b)) 0 0 0 0 0 0 0⟩

lemma dup_chars_at :
    ∀ k ∈ ([13, 23, 24, 36, 38, 51, 58, 59, 80] : List ℕ),
      (CHARACTER_SHAPES.getD k defaultShape).character ∈ dupChars := by
  decide

/-- C10: the duplicated glyphs are unreachable.  `findBestCharacter` never
returns one of the nine duplicated characters, whatever cache earlier calls
have built; and each of the nine catalog indices holding them carries a shape
vector already present at a strictly earlier index. -/
theorem claim_C10_unreachable (vs : List (List ℝ)) (v : List ℝ) :
    (findBestCharacter (applyCalls vs) v).1 ∉ dupChars ∧
    (∀ k ∈ ([13, 23, 24, 36, 38, 51, 58, 59, 80] : List ℕ),
      (CHARACTER_SHAPES.getD k defaultShape).character ∈ dupChars ∧
      ∃ j, j < k ∧ (CHARACTER_SHAPES.getD j defaultShape).shapeVector =
        (CHARACTER_SHAPES.getD k defaultShape).shapeVector) := by
  refine ⟨?_, fun k hk => ⟨dup_chars_at k hk, dup_twin k hk⟩⟩
  simp only [findBestCharacter]
  rcases hfind : cacheFind (applyCalls vs) (generateCacheKey v) with _ | ch
  · simp only [hfind]
    exact scanBest_not_dup v
  · simp only [hfind]
    obtain ⟨w, hw⟩ := callsFold_values vs []
      (fun k ch2 h => by simp [cacheFind] at h) _ ch hfind
    rw [hw]
    exact scanBest_not_dup w
